import Mathlib

/-!
Verification of the streaming risk-aggregation engine (stablecoin risk
platform, Python backend) against its specification.

The Python source is shallowly embedded: timestamps (`datetime`) become
rational seconds, optional numeric payloads become `Option ℚ`, block heights
become `ℤ`, Python `dict`s become association lists accessed through
`lookupKV`/`setKV`, and RPC results (`get_current_block_number`,
`check_block_exists`, `get_block_header`) become explicit parameters.
Every definition mirrors the corresponding function of the source tree
(file and function named in its doc comment).
-/

/-- Association-list lookup modelling Python `dict` read (`m[k]` / `m.get(k)`).
Returns the first binding of the key. -/
def lookupKV {κ ν : Type} [DecidableEq κ] : List (κ × ν) → κ → Option ν
  | [], _ => none
  | (k, v) :: rest, key => if k = key then some v else lookupKV rest key

/-- Association-list update modelling Python `dict` write (`m[k] = v`):
replaces the first binding of the key in place, or appends a new binding. -/
def setKV {κ ν : Type} [DecidableEq κ] : List (κ × ν) → κ → ν → List (κ × ν)
  | [], key, val => [(key, val)]
  | (k, v) :: rest, key, val =>
    if k = key then (key, val) :: rest else (k, v) :: setKV rest key val

/-- Shallow embedding of the `RiskEvent` dataclass of
`src/backend/src/common/schema.py`.  Field defaults mirror the dataclass
defaults (`finality_tier = "tier1"`, `event_version = 1`,
`temporal_confidence = 0.3`, `quality_score = 1.0`, ...).  Fields that no
claim touches (tags, aggregation metadata, latency) are elided. -/
structure RiskEvent where
  event_id : String := ""
  timestamp : ℚ := 0
  coin : String := ""
  chain : String := ""
  source : String := ""
  price : Option ℚ := none
  volume : Option ℚ := none
  liquidity_depth : Option ℚ := none
  net_supply_change : Option ℚ := none
  market_volatility : Option ℚ := none
  sentiment_score : Option ℚ := none
  block_number : Option ℤ := none
  tx_hash : Option String := none
  confirmation_count : ℤ := 0
  finality_tier : String := "tier1"
  is_finalized : Bool := false
  finality_timestamp : Option ℚ := none
  temporal_confidence : ℚ := 3/10
  window_id : String := ""
  window_state : String := "OPEN"
  event_version : ℤ := 1
  invalidated : Bool := false
  replacement_event_id : Option String := none
  reorg_detected_at : Option ℚ := none
  original_block_number : Option ℤ := none
  is_outlier : Bool := false
  quality_score : ℚ := 1
  deriving DecidableEq

/-- `RiskEvent.get_confidence_tier_value` (schema.py): numeric confidence for
the current finality tier, `0.0` default for an unknown tier string. -/
def RiskEvent.get_confidence_tier_value (e : RiskEvent) : ℚ :=
  if e.finality_tier = "tier1" then 3/10
  else if e.finality_tier = "tier2" then 4/5
  else if e.finality_tier = "tier3" then 1
  else 0

/-- `ConfidenceBreakdown` dataclass of schema.py. -/
structure ConfidenceBreakdown where
  finality_weight : ℚ
  chain_confidence : ℚ
  completeness : ℚ
  staleness_penalty : ℚ
  temporal_confidence : ℚ
  deriving DecidableEq

/-- `TCS_CONFIG["expected_sources"]` of `src/backend/src/common/config.py`. -/
def expected_sources : List String :=
  ["price", "liquidity", "supply", "volatility", "sentiment"]

/-- `self.source_importance.get(source_type, 1.0)` with the weight table of
`TCS_CONFIG["source_importance"]` (config.py); default weight 1.0 for an
unknown or absent source type. -/
def source_importance_of : Option String → ℚ
  | some "price" => 1
  | some "liquidity" => 4/5
  | some "supply" => 9/10
  | some "volatility" => 7/10
  | some "sentiment" => 1/2
  | _ => 1

/-- `TCSCalculator._infer_source_type` of
`src/backend/src/layer1_core/tcs/calculator.py`: first populated payload
field in the fixed order price, liquidity, supply, volatility, sentiment;
otherwise `event.source or None` (the empty string is falsy in Python). -/
def infer_source_type (e : RiskEvent) : Option String :=
  if e.price.isSome then some "price"
  else if e.liquidity_depth.isSome then some "liquidity"
  else if e.net_supply_change.isSome then some "supply"
  else if e.market_volatility.isSome then some "volatility"
  else if e.sentiment_score.isSome then some "sentiment"
  else if e.source = "" then none else some e.source

/-- `TCSCalculator._calculate_finality_weight` (calculator.py): importance
weighted average of tier confidences, 0 on an empty list or zero total
importance. -/
def calculate_finality_weight (events : List RiskEvent) : ℚ :=
  if events = [] then 0
  else
    let ws := events.foldl
      (fun acc e =>
        let conf := e.get_confidence_tier_value
        let imp := source_importance_of (infer_source_type e)
        (acc.1 + conf * imp, acc.2 + imp))
      ((0 : ℚ), (0 : ℚ))
    if ws.2 = 0 then 0 else ws.1 / ws.2

/-- One loop iteration of `TCSCalculator._calculate_chain_confidence`
(calculator.py): record the running minimum tier confidence per chain. -/
def chainFinStep (m : List (String × ℚ)) (e : RiskEvent) : List (String × ℚ) :=
  let conf := e.get_confidence_tier_value
  match lookupKV m e.chain with
  | none => setKV m e.chain conf
  | some v => setKV m e.chain (min v conf)

/-- Python `min` over a list of values (0 is never consulted: the callers
guard the empty case separately, mirroring the source). -/
def minValues : List ℚ → ℚ
  | [] => 0
  | v :: vs => vs.foldl min v

/-- `TCSCalculator._calculate_chain_confidence` (calculator.py): minimum over
chains of the minimum tier confidence within each chain. -/
def calculate_chain_confidence (events : List RiskEvent) : ℚ :=
  if events = [] then 0
  else
    let m := events.foldl chainFinStep []
    if m = [] then 0 else minValues (m.map Prod.snd)

/-- Insertion into a Python `set` modelled as a duplicate-free list
(insertion order retained; only the cardinality is consumed). -/
def insertNew (l : List String) (s : String) : List String :=
  if s ∈ l then l else l ++ [s]

/-- The `present_sources` set built inside
`TCSCalculator._calculate_completeness` (calculator.py). -/
def present_sources_of (events : List RiskEvent) : List String :=
  events.foldl
    (fun acc e =>
      match infer_source_type e with
      | some st => insertNew acc st
      | none => acc)
    []

/-- `TCSCalculator._calculate_completeness` (calculator.py):
`len(present_sources) / len(expected_sources)`. -/
def calculate_completeness (events : List RiskEvent) : ℚ :=
  if events = [] then 0
  else ((present_sources_of events).length : ℚ) / (expected_sources.length : ℚ)

/-- Timestamp of `min(events, key=lambda e: e.timestamp)` (oldest event). -/
def oldestTimestamp : List RiskEvent → ℚ
  | [] => 0
  | e :: es => es.foldl (fun a x => min a x.timestamp) e.timestamp

/-- `TCSCalculator._calculate_staleness_penalty` (calculator.py) with the
config thresholds fresh = 300 s, acceptable = 600 s. -/
def calculate_staleness_penalty (events : List RiskEvent) (reference_time : ℚ) : ℚ :=
  if events = [] then 1
  else
    let age := reference_time - oldestTimestamp events
    if age < 300 then 1
    else if age < 600 then 9/10
    else 7/10

/-- `TCSCalculator.calculate_tcs` (calculator.py):
`TCS = clamp((finality_weight * chain_confidence * completeness) / staleness_penalty, 0, 1)`,
with the all-zero breakdown on an empty event list. -/
def calculate_tcs (events : List RiskEvent) (timestamp : ℚ) : ConfidenceBreakdown :=
  if events = [] then
    { finality_weight := 0, chain_confidence := 0, completeness := 0
      staleness_penalty := 1, temporal_confidence := 0 }
  else
    let f := calculate_finality_weight events
    let c := calculate_chain_confidence events
    let k := calculate_completeness events
    let s := calculate_staleness_penalty events timestamp
    { finality_weight := f, chain_confidence := c, completeness := k
      staleness_penalty := s
      temporal_confidence := max 0 (min 1 (f * c * k / s)) }

/-- Per-chain parameters consumed by the finality tracker
(`ChainConfig` of `src/backend/src/common/config.py`; RPC fields elided). -/
structure ChainConfig where
  tier1_confirmations : ℤ
  tier2_confirmations : ℤ
  tier3_confirmations : ℤ
  tier1_time_sec : ℚ
  tier2_time_sec : ℚ
  tier3_time_sec : ℚ
  deriving DecidableEq

/-- The Ethereum profile of `config.CHAINS["ethereum"]`. -/
def ethereumConfig : ChainConfig :=
  { tier1_confirmations := 1, tier2_confirmations := 32, tier3_confirmations := 64
    tier1_time_sec := 12, tier2_time_sec := 384, tier3_time_sec := 768 }

/-- `FinalityTracker.calculate_finality_tier` of
`src/backend/src/layer1_core/finality/tracker.py`. -/
def calculate_finality_tier (cfg : ChainConfig) (confirmations : ℤ) : String :=
  if confirmations ≥ cfg.tier3_confirmations then "tier3"
  else if confirmations ≥ cfg.tier2_confirmations then "tier2"
  else "tier1"

/-- `FinalityTracker.get_finality_confidence` (tracker.py). -/
def get_finality_confidence (tier : String) : ℚ :=
  if tier = "tier1" then 3/10
  else if tier = "tier2" then 4/5
  else if tier = "tier3" then 1
  else 0

/-- `FinalityTracker._update_offchain_finality` (tracker.py): tier from event
age; `finality_timestamp` only set when still `None`. -/
def update_offchain_finality (cfg : ChainConfig) (now : ℚ) (e : RiskEvent) : RiskEvent :=
  let age := now - e.timestamp
  if age ≥ cfg.tier3_time_sec then
    { e with finality_tier := "tier3", temporal_confidence := 1, is_finalized := true
             finality_timestamp :=
               match e.finality_timestamp with
               | none => some now
               | some t => some t }
  else if age ≥ cfg.tier2_time_sec then
    { e with finality_tier := "tier2", temporal_confidence := 4/5 }
  else
    { e with finality_tier := "tier1", temporal_confidence := 3/10 }

/-- `FinalityTracker.update_event_finality` (tracker.py).  The RPC responses
are explicit parameters: `rpc_ok = false` models the `except` branch (the
event is returned unchanged), `current_block` the chain head height, and
`block_exists` the result of `check_block_exists` (false marks a reorg and
invalidates the event). -/
def update_event_finality (cfg : ChainConfig) (rpc_ok : Bool) (current_block : ℤ)
    (block_exists : Bool) (now : ℚ) (e : RiskEvent) : RiskEvent :=
  match e.block_number with
  | none => update_offchain_finality cfg now e
  | some bn =>
    if rpc_ok = false then e
    else
      let confirmations := max 0 (current_block - bn + 1)
      if block_exists = false then
        { e with invalidated := true, reorg_detected_at := some now
                 original_block_number := some bn }
      else
        let tier := calculate_finality_tier cfg confirmations
        let e1 := { e with confirmation_count := confirmations
                           finality_tier := tier
                           temporal_confidence := get_finality_confidence tier }
        if tier = "tier3" ∧ e1.is_finalized = false then
          { e1 with is_finalized := true, finality_timestamp := some now }
        else e1

/-- Rank of a finality tier, used to state tier monotonicity (TIER1 < TIER2 <
TIER3; unknown strings rank 0). -/
def tierRank (tier : String) : ℕ :=
  if tier = "tier1" then 1
  else if tier = "tier2" then 2
  else if tier = "tier3" then 3
  else 0

/-- `WindowState` enum of schema.py. -/
inductive WindowState
  | OPEN
  | PROVISIONAL
  | FINAL
  deriving DecidableEq

/-- `TimeWindow` of `src/backend/src/layer1_core/pipeline/window_manager.py`
(bookkeeping timestamps `opened_at`/`closed_at`/... and the emitted snapshot
object are elided; the snapshot's confidence breakdown is modelled separately
by `snapshot_confidence_breakdown`). -/
structure TimeWindow where
  window_id : String := ""
  window_start : ℚ := 0
  window_end : ℚ := 0
  state : WindowState := WindowState.OPEN
  events : List RiskEvent := []
  deriving DecidableEq

/-- `WINDOW_CONFIG["provisional_delay_sec"]` (config.py). -/
def provisional_delay_sec : ℚ := 60

/-- `WINDOW_CONFIG["finalization_delay_sec"]` (config.py). -/
def finalization_delay_sec : ℚ := 900

/-- `TimeWindow.is_expired` (window_manager.py). -/
def TimeWindow.is_expired (w : TimeWindow) (current_time : ℚ) : Bool :=
  decide (current_time ≥ w.window_end)

/-- `TimeWindow.can_transition_to_provisional` (window_manager.py). -/
def TimeWindow.can_transition_to_provisional (w : TimeWindow) (current_time : ℚ) : Bool :=
  if w.state ≠ WindowState.OPEN then false
  else if w.is_expired current_time = false then false
  else decide (current_time ≥ w.window_end + provisional_delay_sec)

/-- `TimeWindow.can_transition_to_final` (window_manager.py). -/
def TimeWindow.can_transition_to_final (w : TimeWindow) (current_time : ℚ) : Bool :=
  if w.state ≠ WindowState.PROVISIONAL then false
  else decide (current_time ≥ w.window_end + finalization_delay_sec)

/-- `TimeWindow.all_events_finalized` (window_manager.py): vacuously true for
an empty window, else `all(e.is_finalized or e.invalidated)`. -/
def TimeWindow.all_events_finalized (w : TimeWindow) : Bool :=
  w.events.all (fun e => e.is_finalized || e.invalidated)

/-- `TimeWindow.transition_to_provisional` (window_manager.py). -/
def TimeWindow.transition_to_provisional (w : TimeWindow) : TimeWindow :=
  { w with state := WindowState.PROVISIONAL
           events := w.events.map (fun e => { e with window_state := "PROVISIONAL" }) }

/-- `TimeWindow.transition_to_final` (window_manager.py); the snapshot
generation it triggers is modelled by `snapshot_confidence_breakdown`. -/
def TimeWindow.transition_to_final (w : TimeWindow) : TimeWindow :=
  { w with state := WindowState.FINAL
           events := w.events.map (fun e => { e with window_state := "FINAL" }) }

/-- Confidence breakdown of the snapshot built by
`TimeWindow._generate_snapshot` (window_manager.py, lines 131-222): the TCS is
computed over the window's events with invalidated events filtered out. -/
def snapshot_confidence_breakdown (w : TimeWindow) (now : ℚ) : ConfidenceBreakdown :=
  calculate_tcs (w.events.filter (fun e => e.invalidated = false)) now

/-- `WindowManager._process_window` (window_manager.py): one scheduler tick on
one window.  `update_finality` abstracts `_update_window_finality`'s per-event
refresh (applied exactly to the events that are neither finalized nor
invalidated, as in the source). -/
def process_window (update_finality : RiskEvent → RiskEvent) (w : TimeWindow)
    (current_time : ℚ) : TimeWindow :=
  let w1 := if w.can_transition_to_provisional current_time
            then w.transition_to_provisional else w
  let refresh := fun e => if e.is_finalized = false ∧ e.invalidated = false
                          then update_finality e else e
  let w2 := if w1.state = WindowState.PROVISIONAL then
              { w1 with events := w1.events.map refresh }
            else w1
  if w2.can_transition_to_final current_time then
    if w2.all_events_finalized then w2.transition_to_final else w2
  else w2

/-- `ReorgHandler._find_replacement_event` of
`src/backend/src/layer3_multichain/reorg_handler/handler.py`: first candidate
with the same coin and source whose timestamp is within 60 seconds. -/
def find_replacement_event (old : RiskEvent) : List RiskEvent → Option RiskEvent
  | [] => none
  | n :: rest =>
    if n.coin = old.coin ∧ n.source = old.source ∧ |n.timestamp - old.timestamp| < 60
    then some n
    else find_replacement_event old rest

/-- `ReorgHandler._create_correction_event` (handler.py): returns the updated
per-event version map together with the correction event.  Payload and block
fields are copied from the replacement, `is_finalized` is reset,
`original_block_number` records the invalidated event's block; all remaining
fields take the `RiskEvent` dataclass defaults. -/
def create_correction_event (event_versions : List (String × ℤ))
    (old_event new_event : RiskEvent) : List (String × ℤ) × RiskEvent :=
  let current_version := (lookupKV event_versions old_event.event_id).getD 1
  let new_version := current_version + 1
  let versions' := setKV event_versions old_event.event_id new_version
  let correction : RiskEvent :=
    { event_id := old_event.event_id
      event_version := new_version
      timestamp := new_event.timestamp
      coin := new_event.coin
      chain := new_event.chain
      source := new_event.source
      price := new_event.price
      volume := new_event.volume
      liquidity_depth := new_event.liquidity_depth
      net_supply_change := new_event.net_supply_change
      market_volatility := new_event.market_volatility
      sentiment_score := new_event.sentiment_score
      block_number := new_event.block_number
      tx_hash := new_event.tx_hash
      confirmation_count := new_event.confirmation_count
      finality_tier := new_event.finality_tier
      is_finalized := false
      invalidated := false
      original_block_number := old_event.block_number }
  (versions', correction)

/-- Loop body of `ReorgHandler.handle_reorg` (handler.py): processes the
affected events in order, threading the version map; returns the final
version map, the updated (invalidated) affected events, and the correction
events in emission order. -/
def handle_reorg_go (now : ℚ) (new_events : List RiskEvent) :
    List (String × ℤ) → List RiskEvent →
    List (String × ℤ) × List RiskEvent × List RiskEvent
  | versions, [] => (versions, [], [])
  | versions, old :: rest =>
    let old1 := { old with invalidated := true, reorg_detected_at := some now }
    match find_replacement_event old1 new_events with
    | some rep =>
      let vc := create_correction_event versions old1 rep
      let old2 := { old1 with replacement_event_id := some vc.2.event_id }
      let r := handle_reorg_go now new_events vc.1 rest
      (r.1, old2 :: r.2.1, vc.2 :: r.2.2)
    | none =>
      let r := handle_reorg_go now new_events versions rest
      (r.1, old1 :: r.2.1, r.2.2)

/-- `ReorgHandler.handle_reorg` (handler.py).  `new_events = none` models the
Python `None` argument (falsy, exactly like an empty replacement list, so no
replacement is looked up); the per-chain reorg statistics record is elided. -/
def handle_reorg (versions : List (String × ℤ)) (now : ℚ)
    (affected_events : List RiskEvent) (new_events : Option (List RiskEvent)) :
    List (String × ℤ) × List RiskEvent × List RiskEvent :=
  handle_reorg_go now (new_events.getD []) versions affected_events

/-- `QUALITY_CONFIG["price_bounds"]` lower bound (config.py). -/
def price_min : ℚ := 19/20

/-- `QUALITY_CONFIG["price_bounds"]` upper bound (config.py). -/
def price_max : ℚ := 21/20

/-- `QUALITY_CONFIG["dedup_window_sec"]` (config.py). -/
def dedup_window_sec : ℚ := 60

/-- `QUALITY_CONFIG["outlier_z_threshold"]` (config.py). -/
def outlier_z_threshold : ℚ := 3

/-- One event of stage 1, `DataQualityPipeline._normalize_events` of
`src/backend/src/layer1_core/quality/pipeline.py`: uppercase coin, lowercase
chain, clamp the price into the stablecoin bounds, reset the quality score
to 1.0.  (The timezone strip is the identity here: timestamps are already
plain rationals.  Python's `event.coin.upper() if event.coin else ""` equals
`"".toUpper` on the empty string, so the conditional collapses.) -/
def normalize_event (e : RiskEvent) : RiskEvent :=
  let e1 := { e with coin := e.coin.toUpper, chain := e.chain.toLower }
  let e2 :=
    match e1.price with
    | none => e1
    | some p =>
      if p < price_min then { e1 with price := some price_min }
      else if p > price_max then { e1 with price := some price_max }
      else e1
  { e2 with quality_score := 1 }

/-- Stage 1 over a batch (`_normalize_events`, pipeline.py). -/
def normalize_events (events : List RiskEvent) : List RiskEvent :=
  events.map normalize_event

/-- Signature type of `DataQualityPipeline._event_signature` (pipeline.py):
coin, chain, source and the price/liquidity/volume values rounded to 6, 2 and
2 decimal places.  The Python code joins decimal renderings with `"|"`; this
record keeps exactly the same distinguishing information. -/
structure EventSig where
  coin : String
  chain : String
  source : String
  price6 : Option ℤ
  liq2 : Option ℤ
  vol2 : Option ℤ
  deriving DecidableEq

/-- Decimal rounding used by the `f"{x:.6f}"` / `f"{x:.2f}"` renderings in
`_event_signature` (round half up; Python rounds floats half to even, a
difference that no claim here depends on: only equality of signatures of
unchanged values is consumed). -/
def roundDec (scale : ℚ) (q : ℚ) : ℤ := ⌊q * scale + 1/2⌋

/-- `DataQualityPipeline._event_signature` (pipeline.py). -/
def event_signature (e : RiskEvent) : EventSig :=
  { coin := e.coin, chain := e.chain, source := e.source
    price6 := e.price.map (roundDec 1000000)
    liq2 := e.liquidity_depth.map (roundDec 100)
    vol2 := e.volume.map (roundDec 100) }

/-- The sliding-retention cleanup at the top of
`DataQualityPipeline._deduplicate_events` (pipeline.py): drop map entries
whose last-seen time is at or before `now - dedup_window`. -/
def purgeSeen (now : ℚ) (seen : List (EventSig × ℚ)) : List (EventSig × ℚ) :=
  seen.filter (fun p => decide (p.2 > now - dedup_window_sec))

/-- Main loop of `DataQualityPipeline._deduplicate_events` (pipeline.py):
drop an event whose signature was last seen less than the dedup window before
its own timestamp, otherwise keep it and record its timestamp. -/
def dedup_go : List (EventSig × ℚ) → List RiskEvent →
    List (EventSig × ℚ) × List RiskEvent
  | seen, [] => (seen, [])
  | seen, e :: rest =>
    let s := event_signature e
    match lookupKV seen s with
    | some last_seen =>
      if e.timestamp - last_seen < dedup_window_sec then dedup_go seen rest
      else
        let r := dedup_go (setKV seen s e.timestamp) rest
        (r.1, e :: r.2)
    | none =>
      let r := dedup_go (setKV seen s e.timestamp) rest
      (r.1, e :: r.2)

/-- `DataQualityPipeline._deduplicate_events` (pipeline.py): purge the
carried signature map, then filter the batch against it. -/
def deduplicate_events (seen : List (EventSig × ℚ)) (now : ℚ)
    (events : List RiskEvent) : List (EventSig × ℚ) × List RiskEvent :=
  dedup_go (purgeSeen now seen) events

/-- Mean of a list of rationals (`statistics.mean`). -/
def listMean (l : List ℚ) : ℚ := l.sum / (l.length : ℚ)

/-- Sum of squared deviations from the mean; `statistics.stdev l` equals
`Real.sqrt (sqDevTotal l / (l.length - 1))`. -/
def sqDevTotal (l : List ℚ) : ℚ := (l.map (fun x => (x - listMean l) ^ 2)).sum

/-- The test `abs(x - mean) / stdev > threshold` of
`_detect_outliers_in_market` (pipeline.py), rendered exactly over ℚ by
squaring both sides: with `stdev = sqrt(sqDevTotal / (n - 1)) > 0` and
`threshold > 0`, `|x - mean| / stdev > threshold` iff
`(x - mean)^2 * (n - 1) > threshold^2 * sqDevTotal`. -/
def zExceeds (values : List ℚ) (x : ℚ) (threshold : ℚ) : Bool :=
  decide ((x - listMean values) ^ 2 * ((values.length : ℚ) - 1)
            > threshold ^ 2 * sqDevTotal values)

/-- Price block of `DataQualityPipeline._detect_outliers_in_market`
(pipeline.py): with at least 3 non-null prices in the market and positive
standard deviation (equivalently, positive `sqDevTotal`), an event's price is
flagged when its z-score exceeds the threshold. -/
def priceFlagged (market : List RiskEvent) (e : RiskEvent) : Bool :=
  let prices := market.filterMap (fun x => x.price)
  if 3 ≤ prices.length then
    if 0 < sqDevTotal prices then
      match e.price with
      | some p => zExceeds prices p outlier_z_threshold
      | none => false
    else false
  else false

/-- Liquidity block of `_detect_outliers_in_market` (pipeline.py). -/
def liquidityFlagged (market : List RiskEvent) (e : RiskEvent) : Bool :=
  let liqs := market.filterMap (fun x => x.liquidity_depth)
  if 3 ≤ liqs.length then
    if 0 < sqDevTotal liqs then
      match e.liquidity_depth with
      | some p => zExceeds liqs p outlier_z_threshold
      | none => false
    else false
  else false

/-- Effect of `DataQualityPipeline._detect_outliers_in_market` (pipeline.py)
on one event of a market: nothing below 3 events; otherwise the price block
then the liquidity block each set `is_outlier` and halve `quality_score`
when they flag.  (The Python code mutates the shared event objects of the
group; it reads the price and liquidity value lists before mutating, and the
mutations touch only `is_outlier` and `quality_score`, so the per-event
rendering is exact.) -/
def detect_outliers_in_market (market : List RiskEvent) (e : RiskEvent) : RiskEvent :=
  if market.length < 3 then e
  else
    let e1 := if priceFlagged market e
              then { e with is_outlier := true, quality_score := e.quality_score * (1/2) }
              else e
    if liquidityFlagged market e1
    then { e1 with is_outlier := true, quality_score := e1.quality_score * (1/2) }
    else e1

/-- Grouping predicate of `_detect_outliers` (pipeline.py):
membership of `x` in the `(e.coin, e.chain)` market. -/
def sameMarket (e x : RiskEvent) : Bool :=
  decide (x.coin = e.coin) && decide (x.chain = e.chain)

/-- Stage 3, `DataQualityPipeline._detect_outliers` (pipeline.py): batches of
fewer than 3 events pass through; otherwise every event is screened against
its own `(coin, chain)` market. -/
def detect_outliers (events : List RiskEvent) : List RiskEvent :=
  if events.length < 3 then events
  else events.map (fun e => detect_outliers_in_market (events.filter (sameMarket e)) e)

/-- `DataQualityPipeline.process_events` (pipeline.py): normalize, then
deduplicate against the carried signature map, then flag outliers.  Returns
the updated signature map (the pipeline object's `self.seen_events`) and the
surviving batch; an empty batch returns immediately. -/
def process_events (seen : List (EventSig × ℚ)) (now : ℚ)
    (events : List RiskEvent) : List (EventSig × ℚ) × List RiskEvent :=
  if events = [] then (seen, [])
  else
    let normalized := normalize_events events
    let r := deduplicate_events seen now normalized
    (r.1, detect_outliers r.2)

/-- Hash check of one height in `BlockMonitor._find_fork_point` of
`src/backend/src/layer3_multichain/block_monitor/monitor.py`: heights missing
from the cache are skipped, and a height matches when the live chain still
has a block there with the cached hash.  `live` models `get_block_header`
responses. -/
def hashMatches (cache : List (ℤ × String)) (live : ℤ → Option String) (h : ℤ) : Bool :=
  match lookupKV cache h, live h with
  | some cached, some actual => decide (actual = cached)
  | _, _ => false

/-- Backtracking loop of `BlockMonitor._find_fork_point` (monitor.py),
`for height in range(start_height, max(0, start_height - 100), -1)`: the fuel
counts the heights strictly above the stop bound, which is returned when no
cached hash matches the live chain. -/
def find_fork_point_go (cache : List (ℤ × String)) (live : ℤ → Option String)
    (stop : ℤ) : ℤ → ℕ → ℤ
  | _, 0 => stop
  | h, n + 1 =>
    if hashMatches cache live h then h
    else find_fork_point_go cache live stop (h - 1) n

/-- `BlockMonitor._find_fork_point` (monitor.py). -/
def find_fork_point (cache : List (ℤ × String)) (live : ℤ → Option String)
    (start_height : ℤ) : ℤ :=
  let stop := max 0 (start_height - 100)
  find_fork_point_go cache live stop start_height (start_height - stop).toNat

/-- `BlockMonitor._get_events_in_range` (monitor.py): registered events whose
block number lies in `[start_height, end_height]` (both bounds inclusive) on
the monitor's own chain. -/
def get_events_in_range (store : List RiskEvent) (chain : String)
    (start_height end_height : ℤ) : List RiskEvent :=
  store.filter (fun ev =>
    match ev.block_number with
    | none => false
    | some bn => decide (start_height ≤ bn) && decide (bn ≤ end_height)
                   && decide (ev.chain = chain))

/-- Affected-event computation of `BlockMonitor._handle_fork` (monitor.py,
lines 179-229): the fork point is found by backtracking from the detected
height, and the events handed to the reorg handler are those in
`[fork_point, fork_height]`. -/
def handle_fork_affected (cache : List (ℤ × String)) (live : ℤ → Option String)
    (store : List RiskEvent) (chain : String) (fork_height : ℤ) : List RiskEvent :=
  let fork_point := find_fork_point cache live fork_height
  get_events_in_range store chain fork_point fork_height

/-- `CrossChainAggregator._calculate_chain_confidence` of
`src/backend/src/layer3_multichain/cross_chain/aggregator.py`: per chain with
a non-empty event list, the minimum tier confidence of its events; overall
the minimum across chains, 0 when no chain contributes.  This value is
written into the cross-chain snapshot's `confidence_breakdown
["chain_confidence"]` (aggregator.py line 121). -/
def crosschain_chain_confidence
    (events_by_chain : List (String × List RiskEvent)) : ℚ :=
  let cs := events_by_chain.filterMap (fun p =>
    match p.2 with
    | [] => none
    | e :: rest =>
      some (rest.foldl (fun a x => min a x.get_confidence_tier_value)
              e.get_confidence_tier_value))
  match cs with
  | [] => 0
  | v :: vs => vs.foldl min v

/-- Invariant of events that have passed the normalize stage: coin is
uppercase, chain is lowercase, price (if any) lies in the stablecoin bounds.
Used in the pipeline idempotence development. -/
def normalizedFields (e : RiskEvent) : Prop :=
  e.coin = e.coin.toUpper ∧ e.chain = e.chain.toLower ∧
  (∀ p, e.price = some p → price_min ≤ p ∧ p ≤ price_max)

/-- Separation invariant for the dedup replay argument: processing the list
against the given signature map keeps every event (each event's signature is
either absent or was last seen at least a dedup window before the event's
own timestamp, threading the map writes). -/
def SepFrom (seen : List (EventSig × ℚ)) : List RiskEvent → Prop
  | [] => True
  | e :: rest =>
    (∀ t, lookupKV seen (event_signature e) = some t →
        e.timestamp - t ≥ dedup_window_sec) ∧
    SepFrom (setKV seen (event_signature e) e.timestamp) rest

/-- Five fresh TIER3 events, one per expected source type, observed at time 0
(used with reference time 400, placing the batch in the 0.9 staleness band). -/
def cex2Events : List RiskEvent :=
  [ { coin := "USDC", chain := "ethereum", source := "priceA", timestamp := 0
      price := some 1, finality_tier := "tier3" },
    { coin := "USDC", chain := "ethereum", source := "liqA", timestamp := 0
      liquidity_depth := some 1, finality_tier := "tier3" },
    { coin := "USDC", chain := "ethereum", source := "supA", timestamp := 0
      net_supply_change := some 1, finality_tier := "tier3" },
    { coin := "USDC", chain := "ethereum", source := "volA", timestamp := 0
      market_volatility := some 1, finality_tier := "tier3" },
    { coin := "USDC", chain := "ethereum", source := "senA", timestamp := 0
      sentiment_score := some (1/2), finality_tier := "tier3" } ]

/-- A PROVISIONAL window holding one finalized event, past its finalization
deadline at time 1300. -/
def wit1Window : TimeWindow :=
  { window_id := "w1", window_start := 0, window_end := 300
    state := WindowState.PROVISIONAL
    events := [{ event_id := "e1", is_finalized := true }] }

/-- Single non-invalidated TIER2 event for the C3 witness window. -/
def wit3Event : RiskEvent :=
  { event_id := "e3", chain := "ethereum", finality_tier := "tier2" }

/-- Window holding `wit3Event`. -/
def wit3Window : TimeWindow :=
  { window_id := "w3", window_start := 0, window_end := 300
    state := WindowState.FINAL, events := [wit3Event] }

/-- Invalidated on-chain event awaiting a correction. -/
def cex4Old : RiskEvent :=
  { event_id := "X", coin := "USDC", chain := "ethereum", source := "S"
    timestamp := 0, block_number := some 100, invalidated := true }

/-- Replacement event carrying TIER3 finality (its tier is copied onto the
correction while `is_finalized` is reset). -/
def cex4Rep : RiskEvent :=
  { coin := "USDC", chain := "ethereum", source := "S", timestamp := 10
    price := some (999/1000), block_number := some 101, finality_tier := "tier3" }

/-- Replacement event still at TIER1 (witness side of C4). -/
def wit4Rep : RiskEvent :=
  { coin := "USDC", chain := "ethereum", source := "S", timestamp := 10
    price := some (999/1000), block_number := some 101 }

/-- Fresh unfinalized on-chain event anchored at Ethereum block 100. -/
def cex5Event : RiskEvent :=
  { event_id := "e5", coin := "USDC", chain := "ethereum", source := "S"
    timestamp := 0, block_number := some 100 }

/-- First affected event of the C6 witness reorg. -/
def wit6A1 : RiskEvent :=
  { event_id := "a1", coin := "USDC", chain := "ethereum", source := "s1"
    timestamp := 0, block_number := some 100 }

/-- Second affected event of the C6 witness reorg. -/
def wit6A2 : RiskEvent :=
  { event_id := "a2", coin := "DAI", chain := "ethereum", source := "s2"
    timestamp := 0, block_number := some 101 }

/-- Replacement matching `wit6A1` (same coin and source, 10 s apart). -/
def wit6R1 : RiskEvent :=
  { coin := "USDC", chain := "ethereum", source := "s1", timestamp := 10
    price := some 1, block_number := some 200 }

/-- Replacement matching `wit6A2` (same coin and source, 20 s apart). -/
def wit6R2 : RiskEvent :=
  { coin := "DAI", chain := "ethereum", source := "s2", timestamp := 20
    price := some 1, block_number := some 201 }

/-- An event observed at the current clock time (its signature is still inside
the dedup window on a second pass). -/
def cex7Event : RiskEvent :=
  { event_id := "e7", coin := "usdc", chain := "ETH", source := "s"
    timestamp := 1000, price := some 1 }

/-- An event observed 1000 s before the clock (outside the dedup window). -/
def wit7Event : RiskEvent :=
  { event_id := "w7", coin := "usdc", chain := "ETH", source := "s"
    timestamp := 0, price := some 1 }

/-- Baseline event of the C8 market: zero reported volume. -/
def cex8Base : RiskEvent :=
  { coin := "USDC", chain := "ethereum", source := "volfeed", volume := some 0 }

/-- Eleven events of one market: ten zero volumes and one extreme volume,
whose z-score (10/sqrt 11, about 3.02) exceeds the threshold 3. -/
def cex8Events : List RiskEvent :=
  List.replicate 10 cex8Base ++
    [{ cex8Base with source := "volfeed2", volume := some 1000 }]

/-- Cached headers at heights 5 and 6 for the C9 fork. -/
def cex9Cache : List (ℤ × String) := [(5, "a"), (6, "b")]

/-- Live chain after the fork: height 5 unchanged, height 6 rehashed. -/
def cex9Live : ℤ → Option String := fun h =>
  if h = 5 then some "a" else if h = 6 then some "c" else none

/-- Registered event anchored exactly at the fork point (height 5). -/
def cex9Event : RiskEvent :=
  { event_id := "e9", chain := "ethereum", block_number := some 5 }

/-- Event whose price, volume, liquidity, supply, volatility and sentiment
payloads are all populated (source-type inference must pick price). -/
def wit10Event : RiskEvent :=
  { event_id := "e10", coin := "USDC", chain := "ethereum", source := "multi"
    price := some 1, volume := some 2, liquidity_depth := some 3
    net_supply_change := some 4, market_volatility := some 5
    sentiment_score := some (1/2) }

/-- Event with no payload fields and a non-empty source tag. -/
def wit10Bare : RiskEvent :=
  { event_id := "e10b", coin := "USDC", chain := "ethereum", source := "coingecko" }

theorem foldl_min_le_init (l : List ℚ) (a : ℚ) : l.foldl min a ≤ a := by
  induction l generalizing a with
  | nil => simp
  | cons x xs ih => exact le_trans (ih (min a x)) (min_le_left a x)

theorem foldl_min_le_mem (l : List ℚ) (a x : ℚ) (hx : x ∈ l) : l.foldl min a ≤ x := by
  induction l generalizing a with
  | nil => cases hx
  | cons y ys ih =>
    rcases List.mem_cons.mp hx with h | h
    · subst h
      exact le_trans (foldl_min_le_init ys (min a x)) (min_le_right a x)
    · exact ih (min a y) h

theorem minValues_le (l : List ℚ) (v : ℚ) (hv : v ∈ l) : minValues l ≤ v := by
  cases l with
  | nil => cases hv
  | cons x xs =>
    rcases List.mem_cons.mp hv with h | h
    · subst h; exact foldl_min_le_init xs v
    · exact foldl_min_le_mem xs x v h

theorem lookupKV_setKV_self {κ ν : Type} [DecidableEq κ] (m : List (κ × ν)) (k : κ) (v : ν) :
    lookupKV (setKV m k v) k = some v := by
  induction m with
  | nil => simp [setKV, lookupKV]
  | cons p rest ih =>
    obtain ⟨k1, v1⟩ := p
    by_cases h : k1 = k
    · simp [setKV, h, lookupKV]
    · simp [setKV, h, lookupKV, ih]

theorem lookupKV_setKV_other {κ ν : Type} [DecidableEq κ] (m : List (κ × ν))
    (k k2 : κ) (v : ν) (h : k2 ≠ k) :
    lookupKV (setKV m k v) k2 = lookupKV m k2 := by
  induction m with
  | nil => simp [setKV, lookupKV, Ne.symm h]
  | cons p rest ih =>
    obtain ⟨k1, v1⟩ := p
    by_cases h1 : k1 = k
    · subst h1
      simp [setKV, lookupKV, Ne.symm h]
    · simp [setKV, h1, lookupKV, ih]

theorem lookupKV_mem_values {κ ν : Type} [DecidableEq κ] (m : List (κ × ν)) (k : κ) (v : ν)
    (h : lookupKV m k = some v) : v ∈ m.map Prod.snd := by
  induction m with
  | nil => simp [lookupKV] at h
  | cons p rest ih =>
    obtain ⟨k1, v1⟩ := p
    by_cases h1 : k1 = k
    · simp [lookupKV, h1] at h
      simp [h]
    · simp [lookupKV, h1] at h
      simp [ih h]

theorem chainFold_bound (events : List RiskEvent) :
    ∀ (m : List (String × ℚ)) (c : String) (v : ℚ), lookupKV m c = some v →
      ∃ v2, lookupKV (events.foldl chainFinStep m) c = some v2 ∧ v2 ≤ v := by
  induction events with
  | nil => exact fun m c v h => ⟨v, h, le_refl v⟩
  | cons x xs ih =>
    intro m c v h
    by_cases hc : x.chain = c
    · subst hc
      rw [List.foldl_cons]
      have hstep : lookupKV (chainFinStep m x) x.chain
          = some (min v x.get_confidence_tier_value) := by
        simp only [chainFinStep, h]
        exact lookupKV_setKV_self m x.chain _
      obtain ⟨v2, hv2, hle⟩ := ih (chainFinStep m x) x.chain _ hstep
      exact ⟨v2, hv2, le_trans hle (min_le_left _ _)⟩
    · rw [List.foldl_cons]
      have hstep : lookupKV (chainFinStep m x) c = some v := by
        simp only [chainFinStep]
        cases hm : lookupKV m x.chain with
        | none => rw [lookupKV_setKV_other m x.chain c _ (fun he => hc he.symm)]; exact h
        | some w => rw [lookupKV_setKV_other m x.chain c _ (fun he => hc he.symm)]; exact h
      exact ih (chainFinStep m x) c v hstep

theorem chainFold_mem (events : List RiskEvent) :
    ∀ (m : List (String × ℚ)) (e : RiskEvent), e ∈ events →
      ∃ v, lookupKV (events.foldl chainFinStep m) e.chain = some v ∧
        v ≤ e.get_confidence_tier_value := by
  induction events with
  | nil => intro m e he; cases he
  | cons x xs ih =>
    intro m e he
    rcases List.mem_cons.mp he with h | h
    · subst h
      rw [List.foldl_cons]
      cases hm : lookupKV m e.chain with
      | none =>
        have hstep : lookupKV (chainFinStep m e) e.chain
            = some e.get_confidence_tier_value := by
          simp only [chainFinStep, hm]
          exact lookupKV_setKV_self m e.chain _
        obtain ⟨v2, hv2, hle⟩ := chainFold_bound xs (chainFinStep m e) e.chain _ hstep
        exact ⟨v2, hv2, hle⟩
      | some w =>
        have hstep : lookupKV (chainFinStep m e) e.chain
            = some (min w e.get_confidence_tier_value) := by
          simp only [chainFinStep, hm]
          exact lookupKV_setKV_self m e.chain _
        obtain ⟨v2, hv2, hle⟩ := chainFold_bound xs (chainFinStep m e) e.chain _ hstep
        exact ⟨v2, hv2, le_trans hle (min_le_right _ _)⟩
    · exact ih (chainFinStep m x) e h

theorem calculate_chain_confidence_le (events : List RiskEvent) (e : RiskEvent)
    (he : e ∈ events) :
    calculate_chain_confidence events ≤ e.get_confidence_tier_value := by
  have hne : events ≠ [] := by rintro rfl; cases he
  obtain ⟨v, hv, hle⟩ := chainFold_mem events [] e he
  have hm : events.foldl chainFinStep [] ≠ [] := by
    intro h; rw [h] at hv; simp [lookupKV] at hv
  simp only [calculate_chain_confidence, if_neg hne, if_neg hm]
  exact le_trans (minValues_le _ v (lookupKV_mem_values _ _ _ hv)) hle

theorem crosschain_chain_confidence_le
    (events_by_chain : List (String × List RiskEvent)) (c : String)
    (evs : List RiskEvent) (e : RiskEvent)
    (hc : (c, evs) ∈ events_by_chain) (he : e ∈ evs) :
    crosschain_chain_confidence events_by_chain ≤ e.get_confidence_tier_value := by
  cases evs with
  | nil => cases he
  | cons e0 rest =>
    have hfold : rest.foldl (fun a x => min a x.get_confidence_tier_value)
        e0.get_confidence_tier_value ≤ e.get_confidence_tier_value := by
      have hmap : rest.foldl (fun a x => min a x.get_confidence_tier_value)
          e0.get_confidence_tier_value
          = (rest.map RiskEvent.get_confidence_tier_value).foldl min
              e0.get_confidence_tier_value := by
        rw [List.foldl_map]
      rcases List.mem_cons.mp he with h | h
      · subst h; rw [hmap]; exact foldl_min_le_init _ _
      · rw [hmap]
        exact foldl_min_le_mem _ _ _ (List.mem_map_of_mem _ h)
    have hmem : rest.foldl (fun a x => min a x.get_confidence_tier_value)
        e0.get_confidence_tier_value ∈
        events_by_chain.filterMap (fun p =>
          match p.2 with
          | [] => none
          | e1 :: rest1 =>
            some (rest1.foldl (fun a x => min a x.get_confidence_tier_value)
                    e1.get_confidence_tier_value)) := by
      exact List.mem_filterMap.mpr ⟨(c, e0 :: rest), hc, rfl⟩
    unfold crosschain_chain_confidence
    cases hcs : events_by_chain.filterMap (fun p =>
        match p.2 with
        | [] => none
        | e1 :: rest1 =>
          some (rest1.foldl (fun a x => min a x.get_confidence_tier_value)
                  e1.get_confidence_tier_value)) with
    | nil => rw [hcs] at hmem; cases hmem
    | cons v vs =>
      rw [hcs] at hmem
      rcases List.mem_cons.mp hmem with h | h
      · subst h
        exact le_trans (foldl_min_le_init vs _) hfold
      · exact le_trans (foldl_min_le_mem vs v _ h) hfold

theorem calculate_tcs_nonempty (events : List RiskEvent) (ts : ℚ) (h : events ≠ []) :
    calculate_tcs events ts =
      { finality_weight := calculate_finality_weight events
        chain_confidence := calculate_chain_confidence events
        completeness := calculate_completeness events
        staleness_penalty := calculate_staleness_penalty events ts
        temporal_confidence :=
          max 0 (min 1 (calculate_finality_weight events *
            calculate_chain_confidence events * calculate_completeness events /
            calculate_staleness_penalty events ts)) } := by
  simp [calculate_tcs, h]

/-- C3: for every chain `c` and every snapshot whose aggregated event set
contains events from `c` — produced either by the window manager's snapshot
generation or by the cross-chain aggregator — the chain-confidence component
recorded in the snapshot's confidence breakdown is at most the minimum tier
confidence over the events of chain `c` in that set (equivalently, it is at
most the tier confidence of every such event). -/
theorem C3_snapshot_chain_confidence_min :
    (∀ (w : TimeWindow) (now : ℚ) (c : String) (e : RiskEvent),
        e ∈ w.events → e.invalidated = false → e.chain = c →
        (snapshot_confidence_breakdown w now).chain_confidence
          ≤ e.get_confidence_tier_value)
    ∧ (∀ (events_by_chain : List (String × List RiskEvent)) (c : String)
        (evs : List RiskEvent) (e : RiskEvent),
        (c, evs) ∈ events_by_chain → e ∈ evs →
        crosschain_chain_confidence events_by_chain
          ≤ e.get_confidence_tier_value) := by
  constructor
  · intro w now c e he hinv _
    have hmem : e ∈ w.events.filter (fun x => x.invalidated = false) := by
      rw [List.mem_filter]
      exact ⟨he, by simp [hinv]⟩
    have hne : w.events.filter (fun x => x.invalidated = false) ≠ [] := by
      intro hnil; rw [hnil] at hmem; cases hmem
    unfold snapshot_confidence_breakdown
    rw [calculate_tcs_nonempty _ _ hne]
    exact calculate_chain_confidence_le _ e hmem
  · intro ebc c evs e hc he
    exact crosschain_chain_confidence_le ebc c evs e hc he

/-- Witness for C3 at a concrete window and a concrete chain map. -/
theorem C3_witness :
    (snapshot_confidence_breakdown wit3Window 0).chain_confidence
      ≤ wit3Event.get_confidence_tier_value
    ∧ crosschain_chain_confidence [("ethereum", [wit3Event])]
      ≤ wit3Event.get_confidence_tier_value := by
  constructor
  · exact C3_snapshot_chain_confidence_min.1 wit3Window 0 "ethereum" wit3Event
      (by simp [wit3Window]) (by simp [wit3Event]) (by simp [wit3Event])
  · exact C3_snapshot_chain_confidence_min.2 [("ethereum", [wit3Event])]
      "ethereum" [wit3Event] wit3Event (by simp) (by simp)

theorem staleness_penalty_pos (events : List RiskEvent) (ts : ℚ) :
    0 < calculate_staleness_penalty events ts := by
  unfold calculate_staleness_penalty
  dsimp only
  split_ifs <;> norm_num

theorem clamp_eq_one_iff (x : ℚ) : max 0 (min 1 x) = 1 ↔ 1 ≤ x := by
  rcases le_or_lt 1 x with h | h
  · simp [min_eq_left h, h]
  · rw [min_eq_right (le_of_lt h)]
    constructor
    · intro h1
      have hlt : max (0 : ℚ) x < 1 := max_lt (by norm_num) h
      rw [h1] at hlt
      exact absurd hlt (by norm_num)
    · intro h1
      exact absurd (lt_of_le_of_lt h1 h) (by norm_num)

/-- C2 (amended): for every list of events and every reference time the TCS
lies in `[0, 1]` and equals 0 on the empty list; for a non-empty list it
equals 1 exactly when the product of the finality-weight, chain-confidence
and completeness components reaches the staleness penalty — because the
formula divides by the penalty, TCS = 1 does not require the staleness
penalty to be 1. -/
theorem C2_tcs_range_and_extremes (events : List RiskEvent) (ts : ℚ) :
    0 ≤ (calculate_tcs events ts).temporal_confidence
    ∧ (calculate_tcs events ts).temporal_confidence ≤ 1
    ∧ (events = [] → (calculate_tcs events ts).temporal_confidence = 0)
    ∧ (events ≠ [] →
        ((calculate_tcs events ts).temporal_confidence = 1 ↔
          (calculate_tcs events ts).staleness_penalty ≤
            (calculate_tcs events ts).finality_weight *
              (calculate_tcs events ts).chain_confidence *
              (calculate_tcs events ts).completeness)) := by
  by_cases h : events = []
  · subst h
    exact ⟨by simp [calculate_tcs], by simp [calculate_tcs],
      fun _ => by simp [calculate_tcs], fun hc => absurd rfl hc⟩
  · rw [calculate_tcs_nonempty events ts h]
    dsimp only
    have hs : 0 < calculate_staleness_penalty events ts := staleness_penalty_pos events ts
    refine ⟨le_max_left _ _, max_le (by norm_num) (min_le_left _ _),
      fun hc => absurd hc h, fun _ => ?_⟩
    rw [clamp_eq_one_iff]
    exact one_le_div hs

/-- Counterexample to C2 as stated: five fresh TIER3 events, one per source
type, evaluated 400 s after observation give TCS = 1 while the staleness
penalty is 0.9: TCS = 1 is reached although the staleness penalty is not 1. -/
theorem C2_counterexample :
    (calculate_tcs cex2Events 400).temporal_confidence = 1
    ∧ (calculate_tcs cex2Events 400).staleness_penalty ≠ 1 := by
  have h5 : cex2Events ≠ [] := by simp [cex2Events]
  have hf : calculate_finality_weight cex2Events = 1 := by
    simp [calculate_finality_weight, cex2Events, RiskEvent.get_confidence_tier_value,
      infer_source_type, source_importance_of]
    norm_num
  have hc : calculate_chain_confidence cex2Events = 1 := by
    simp [calculate_chain_confidence, cex2Events, chainFinStep, lookupKV, setKV,
      minValues, RiskEvent.get_confidence_tier_value, min_def]
  have hk : calculate_completeness cex2Events = 1 := by
    simp [calculate_completeness, cex2Events, present_sources_of, infer_source_type,
      insertNew, expected_sources]
  have hst : calculate_staleness_penalty cex2Events 400 = 9/10 := by
    simp [calculate_staleness_penalty, cex2Events, oldestTimestamp, min_def]
    norm_num
  constructor
  · rw [calculate_tcs_nonempty cex2Events 400 h5]
    dsimp only
    rw [hf, hc, hk, hst]
    norm_num [max_def, min_def]
  · rw [calculate_tcs_nonempty cex2Events 400 h5]
    dsimp only
    rw [hst]
    norm_num

/-- Witness for C2 exercising both the empty-list branch and the TCS = 1
characterization at a concrete non-empty input. -/
theorem C2_witness :
    (calculate_tcs [] 0).temporal_confidence = 0
    ∧ ((calculate_tcs cex2Events 400).temporal_confidence = 1 ↔
        (calculate_tcs cex2Events 400).staleness_penalty ≤
          (calculate_tcs cex2Events 400).finality_weight *
            (calculate_tcs cex2Events 400).chain_confidence *
            (calculate_tcs cex2Events 400).completeness) := by
  constructor
  · exact (C2_tcs_range_and_extremes [] 0).2.2.1 rfl
  · exact (C2_tcs_range_and_extremes cex2Events 400).2.2.2 (by simp [cex2Events])

/-- C10: the TCS calculator assigns exactly one source type per event by
checking payload fields in the fixed priority order price, liquidity, supply,
volatility, sentiment, taking the first populated field; an event with
several populated payload fields therefore contributes to completeness and to
the importance-weighted finality average only as the highest-priority field
(for a price-carrying event, weight `w("price") = 1`, so its finality-weight
contribution is exactly its tier confidence and it adds the single type
`"price"` to completeness); an event with no payload fields falls back to its
(non-empty) source string as its type. -/
theorem C10_source_type_priority :
    (∀ e : RiskEvent, e.price.isSome →
        infer_source_type e = some "price"
        ∧ calculate_finality_weight [e] = e.get_confidence_tier_value
        ∧ calculate_completeness [e] = 1/5)
    ∧ (∀ e : RiskEvent, e.price = none → e.liquidity_depth.isSome →
        infer_source_type e = some "liquidity")
    ∧ (∀ e : RiskEvent, e.price = none → e.liquidity_depth = none →
        e.net_supply_change.isSome → infer_source_type e = some "supply")
    ∧ (∀ e : RiskEvent, e.price = none → e.liquidity_depth = none →
        e.net_supply_change = none → e.market_volatility.isSome →
        infer_source_type e = some "volatility")
    ∧ (∀ e : RiskEvent, e.price = none → e.liquidity_depth = none →
        e.net_supply_change = none → e.market_volatility = none →
        e.sentiment_score.isSome → infer_source_type e = some "sentiment")
    ∧ (∀ e : RiskEvent, e.price = none → e.liquidity_depth = none →
        e.net_supply_change = none → e.market_volatility = none →
        e.sentiment_score = none → e.source ≠ "" →
        infer_source_type e = some e.source) := by
  refine ⟨?_, ?_, ?_, ?_, ?_, ?_⟩
  · intro e hp
    have hinf : infer_source_type e = some "price" := by
      simp [infer_source_type, hp]
    refine ⟨hinf, ?_, ?_⟩
    · simp [calculate_finality_weight, hinf, source_importance_of]
    · simp [calculate_completeness, present_sources_of, hinf, insertNew,
        expected_sources]
  · intro e hp hl
    simp [infer_source_type, hp, hl]
  · intro e hp hl hs
    simp [infer_source_type, hp, hl, hs]
  · intro e hp hl hs hv
    simp [infer_source_type, hp, hl, hs, hv]
  · intro e hp hl hs hv hse
    simp [infer_source_type, hp, hl, hs, hv, hse]
  · intro e hp hl hs hv hse hsrc
    simp [infer_source_type, hp, hl, hs, hv, hse, hsrc]

/-- Witness for C10 on a fully populated event and a payload-free event. -/
theorem C10_witness :
    infer_source_type wit10Event = some "price"
    ∧ calculate_finality_weight [wit10Event] = wit10Event.get_confidence_tier_value
    ∧ calculate_completeness [wit10Event] = 1/5
    ∧ infer_source_type wit10Bare = some wit10Bare.source := by
  have h1 := C10_source_type_priority.1 wit10Event (by simp [wit10Event])
  have h2 := C10_source_type_priority.2.2.2.2.2 wit10Bare
    (by simp [wit10Bare]) (by simp [wit10Bare]) (by simp [wit10Bare])
    (by simp [wit10Bare]) (by simp [wit10Bare]) (by simp [wit10Bare])
  exact ⟨h1.1, h1.2.1, h1.2.2, h2⟩

theorem can_final_spec (w : TimeWindow) (t : ℚ)
    (h : w.can_transition_to_final t = true) :
    w.state = WindowState.PROVISIONAL ∧ t ≥ w.window_end + finalization_delay_sec := by
  unfold TimeWindow.can_transition_to_final at h
  by_cases hs : w.state = WindowState.PROVISIONAL
  · rw [if_neg (fun hne => hne hs)] at h
    exact ⟨hs, of_decide_eq_true h⟩
  · rw [if_pos hs] at h
    cases h

theorem all_events_finalized_spec (w : TimeWindow) :
    w.all_events_finalized = true ↔
      ∀ e ∈ w.events, e.is_finalized = true ∨ e.invalidated = true := by
  unfold TimeWindow.all_events_finalized
  rw [List.all_eq_true]
  constructor
  · intro h e he
    rcases Bool.or_eq_true_iff.mp (h e he) with h1 | h1
    · exact Or.inl h1
    · exact Or.inr h1
  · intro h e he
    rcases h e he with h1 | h1
    · exact Bool.or_eq_true_iff.mpr (Or.inl h1)
    · exact Bool.or_eq_true_iff.mpr (Or.inr h1)

/-- C1: a window that reaches FINAL during a scheduler tick does so only when
the finalization delay has elapsed, and at the moment of the transition every
event it holds (after the tick's finality refresh) satisfies
`is_finalized ∨ invalidated`; conversely, while some event is neither
finalized nor invalidated the window is never force-finalized — it does not
reach FINAL on this tick. -/
theorem C1_window_final_transition_safety
    (update_finality : RiskEvent → RiskEvent) (w : TimeWindow) (t : ℚ)
    (hw : w.state ≠ WindowState.FINAL) :
    ((process_window update_finality w t).state = WindowState.FINAL →
      t ≥ w.window_end + finalization_delay_sec
      ∧ ∀ e ∈ (process_window update_finality w t).events,
          e.is_finalized = true ∨ e.invalidated = true)
    ∧ ((∃ e ∈ (process_window update_finality w t).events,
          e.is_finalized = false ∧ e.invalidated = false) →
        (process_window update_finality w t).state ≠ WindowState.FINAL) := by
  set refresh := fun e : RiskEvent =>
    if e.is_finalized = false ∧ e.invalidated = false then update_finality e else e
    with hrefresh
  set w1 := if w.can_transition_to_provisional t then w.transition_to_provisional else w
    with hw1
  set w2 := if w1.state = WindowState.PROVISIONAL
            then { w1 with events := w1.events.map refresh } else w1 with hw2
  have hpw : process_window update_finality w t =
      if w2.can_transition_to_final t then
        (if w2.all_events_finalized then w2.transition_to_final else w2)
      else w2 := rfl
  have hend : w2.window_end = w.window_end := by
    rw [hw2, hw1]
    split_ifs <;> rfl
  have hs1 : w1.state = WindowState.PROVISIONAL ∨ w1.state = w.state := by
    rw [hw1]
    split_ifs
    · exact Or.inl rfl
    · exact Or.inr rfl
  have hs2e : w2.state = w1.state := by
    rw [hw2]
    split_ifs <;> rfl
  have hs2 : w2.state ≠ WindowState.FINAL := by
    rw [hs2e]
    rcases hs1 with h | h
    · rw [h]; intro hc; cases hc
    · rw [h]; exact hw
  by_cases hcf : w2.can_transition_to_final t = true
  · by_cases haf : w2.all_events_finalized = true
    · rw [hpw, if_pos hcf, if_pos haf]
      have hspec := can_final_spec w2 t hcf
      constructor
      · intro _
        refine ⟨hend ▸ hspec.2, ?_⟩
        intro e' he'
        unfold TimeWindow.transition_to_final at he'
        simp only [List.mem_map] at he'
        obtain ⟨e, he, rfl⟩ := he'
        exact (all_events_finalized_spec w2).mp haf e he
      · rintro ⟨e', he', hbadf, hbadi⟩
        unfold TimeWindow.transition_to_final at he'
        simp only [List.mem_map] at he'
        obtain ⟨e, he, rfl⟩ := he'
        rcases (all_events_finalized_spec w2).mp haf e he with h1 | h1
        · rw [h1] at hbadf; cases hbadf
        · rw [h1] at hbadi; cases hbadi
    · rw [hpw, if_pos hcf, if_neg (fun hb => haf hb)]
      exact ⟨fun hfin => absurd hfin hs2, fun _ => hs2⟩
  · rw [hpw, if_neg hcf]
    exact ⟨fun hfin => absurd hfin hs2, fun _ => hs2⟩

/-- Witness for C1: a PROVISIONAL window whose single event is finalized,
processed 1000 s after its end, reaches FINAL with the delay elapsed. -/
theorem C1_witness :
    1300 ≥ wit1Window.window_end + finalization_delay_sec
    ∧ ∀ e ∈ (process_window id wit1Window 1300).events,
        e.is_finalized = true ∨ e.invalidated = true := by
  have h := (C1_window_final_transition_safety id wit1Window 1300
    (by simp [wit1Window])).1
  refine h ?_
  simp [process_window, wit1Window, TimeWindow.can_transition_to_provisional,
    TimeWindow.can_transition_to_final, TimeWindow.all_events_finalized,
    TimeWindow.transition_to_final, TimeWindow.is_expired, finalization_delay_sec,
    provisional_delay_sec, TimeWindow.transition_to_provisional]
  norm_num

/-- C4 (amended): after any finality refresh of a non-finalized event whose
tier is not yet TIER3 (the only events the window manager and the finality
monitor refresh), `is_finalized` holds iff `finality_tier = "tier3"`.  A
correction event always has `is_finalized = false` but copies
`finality_tier` verbatim from the replacement, so the equivalence holds for
a correction exactly when the replacement's tier is not TIER3. -/
theorem C4_finalized_iff_tier3 :
    (∀ (cfg : ChainConfig) (rpc_ok : Bool) (current_block : ℤ)
        (block_exists : Bool) (now : ℚ) (e : RiskEvent),
        e.is_finalized = false → e.finality_tier ≠ "tier3" →
        ((update_event_finality cfg rpc_ok current_block block_exists now
            e).is_finalized = true ↔
          (update_event_finality cfg rpc_ok current_block block_exists now
            e).finality_tier = "tier3"))
    ∧ (∀ (versions : List (String × ℤ)) (old_event new_event : RiskEvent),
        (create_correction_event versions old_event new_event).2.is_finalized = false
        ∧ (create_correction_event versions old_event new_event).2.finality_tier
            = new_event.finality_tier) := by
  constructor
  · intro cfg rpc_ok cb bx now e hf ht
    cases hbn : e.block_number with
    | none =>
      simp only [update_event_finality, hbn, update_offchain_finality]
      split_ifs with h1 h2
      · simp
      · simp [hf]
      · simp [hf]
    | some bn =>
      simp only [update_event_finality, hbn]
      split_ifs with h1 h2 h3
      · simp [hf, ht]
      · simp [hf, ht]
      · simp [h3.1]
      · rw [not_and] at h3
        by_cases htier : calculate_finality_tier cfg (max 0 (cb - bn + 1)) = "tier3"
        · exact absurd hf (h3 htier)
        · simp [hf, htier]
  · intro versions old_event new_event
    exact ⟨rfl, rfl⟩

/-- Counterexample to C4 as stated: the correction built from a TIER3
replacement has `is_finalized = false` while `finality_tier = "tier3"`,
violating the claimed equivalence. -/
theorem C4_counterexample :
    ¬(((create_correction_event [] cex4Old cex4Rep).2.is_finalized = true) ↔
      (create_correction_event [] cex4Old cex4Rep).2.finality_tier = "tier3") := by
  simp [create_correction_event, cex4Old, cex4Rep]

/-- Witness for C4 at a concrete refresh and a concrete TIER1 replacement. -/
theorem C4_witness :
    ((update_event_finality ethereumConfig true 131 true 0
        cex5Event).is_finalized = true ↔
      (update_event_finality ethereumConfig true 131 true 0
        cex5Event).finality_tier = "tier3")
    ∧ (create_correction_event [] cex4Old wit4Rep).2.is_finalized = false := by
  constructor
  · exact C4_finalized_iff_tier3.1 ethereumConfig true 131 true 0 cex5Event
      (by decide) (by decide)
  · exact (C4_finalized_iff_tier3.2 [] cex4Old wit4Rep).1

theorem tier_mono (cfg : ChainConfig) (c1 c2 : ℤ) (h : c1 ≤ c2) :
    tierRank (calculate_finality_tier cfg c1)
      ≤ tierRank (calculate_finality_tier cfg c2) := by
  unfold calculate_finality_tier
  split_ifs <;> simp [tierRank] <;> omega

theorem update_onchain_fields (cfg : ChainConfig) (cb : ℤ) (now : ℚ) (e : RiskEvent)
    (bn : ℤ) (hbn : e.block_number = some bn) :
    (update_event_finality cfg true cb true now e).finality_tier
      = calculate_finality_tier cfg (max 0 (cb - bn + 1))
    ∧ (update_event_finality cfg true cb true now e).block_number = some bn := by
  simp only [update_event_finality, hbn]
  split_ifs with h1 h2 h3 <;> simp_all

theorem update_offchain_fields (cfg : ChainConfig) (now : ℚ) (e : RiskEvent) :
    (update_offchain_finality cfg now e).finality_tier
      = (if now - e.timestamp ≥ cfg.tier3_time_sec then "tier3"
         else if now - e.timestamp ≥ cfg.tier2_time_sec then "tier2" else "tier1")
    ∧ (update_offchain_finality cfg now e).timestamp = e.timestamp := by
  simp only [update_offchain_finality]
  split_ifs <;> simp

theorem update_offchain_idem (cfg : ChainConfig) (now : ℚ) (e : RiskEvent) :
    update_offchain_finality cfg now (update_offchain_finality cfg now e)
      = update_offchain_finality cfg now e := by
  simp only [update_offchain_finality]
  split_ifs with h1 h2
  · cases hft : e.finality_timestamp <;> simp [h1, hft]
  · simp [h1, h2]
  · simp [h1, h2]

theorem update_event_finality_idem (cfg : ChainConfig) (rpc_ok : Bool) (cb : ℤ)
    (bx : Bool) (now : ℚ) (e : RiskEvent) :
    update_event_finality cfg rpc_ok cb bx now
        (update_event_finality cfg rpc_ok cb bx now e)
      = update_event_finality cfg rpc_ok cb bx now e := by
  cases hbn : e.block_number with
  | none =>
    have hbn1 : (update_offchain_finality cfg now e).block_number = none := by
      simp only [update_offchain_finality]
      split_ifs <;> simp [hbn]
    simp only [update_event_finality, hbn, hbn1]
    exact update_offchain_idem cfg now e
  | some bn =>
    cases rpc_ok with
    | false => simp [update_event_finality, hbn]
    | true =>
      cases bx with
      | false =>
        simp only [update_event_finality, hbn]
        norm_num
      | true =>
        simp only [update_event_finality, hbn]
        norm_num
        split_ifs with h1 <;> simp_all

/-- C5 (amended): across two successive finality refreshes of an event, the
finality tier never decreases provided the observed chain head height did not
decrease (on-chain) or the reference clock did not move backwards
(off-chain); a refresh that observes a lower head height can downgrade the
tier.  The refresh function is idempotent: repeated application with the same
inputs yields the same event state. -/
theorem C5_tier_monotone_and_idempotent :
    (∀ (cfg : ChainConfig) (e : RiskEvent) (bn head1 head2 : ℤ) (now1 now2 : ℚ),
        e.block_number = some bn → head1 ≤ head2 →
        tierRank (update_event_finality cfg true head1 true now1 e).finality_tier
          ≤ tierRank (update_event_finality cfg true head2 true now2
              (update_event_finality cfg true head1 true now1 e)).finality_tier)
    ∧ (∀ (cfg : ChainConfig) (e : RiskEvent) (now1 now2 : ℚ),
        e.block_number = none → now1 ≤ now2 →
        tierRank (update_offchain_finality cfg now1 e).finality_tier
          ≤ tierRank (update_offchain_finality cfg now2
              (update_offchain_finality cfg now1 e)).finality_tier)
    ∧ (∀ (cfg : ChainConfig) (rpc_ok : Bool) (current_block : ℤ)
        (block_exists : Bool) (now : ℚ) (e : RiskEvent),
        update_event_finality cfg rpc_ok current_block block_exists now
            (update_event_finality cfg rpc_ok current_block block_exists now e)
          = update_event_finality cfg rpc_ok current_block block_exists now e) := by
  refine ⟨?_, ?_, fun cfg r cb bx now e => update_event_finality_idem cfg r cb bx now e⟩
  · intro cfg e bn head1 head2 now1 now2 hbn hle
    obtain ⟨ht1, hbn1⟩ := update_onchain_fields cfg head1 now1 e bn hbn
    obtain ⟨ht2, _⟩ := update_onchain_fields cfg head2 now2
      (update_event_finality cfg true head1 true now1 e) bn hbn1
    rw [ht1, ht2]
    exact tier_mono cfg _ _ (max_le_max (le_refl 0) (by omega))
  · intro cfg e now1 now2 hbn hle
    obtain ⟨ht1, hts1⟩ := update_offchain_fields cfg now1 e
    obtain ⟨ht2, _⟩ := update_offchain_fields cfg now2 (update_offchain_finality cfg now1 e)
    rw [ht1, ht2, hts1]
    split_ifs <;> simp [tierRank] <;> linarith

/-- Counterexample to C5 as stated: a refresh observing Ethereum head 131
puts the block-100 event at TIER2 (32 confirmations); a later refresh
observing head 100 recomputes 1 confirmation and downgrades it to TIER1
without any invalidation. -/
theorem C5_counterexample :
    (update_event_finality ethereumConfig true 131 true 0 cex5Event).finality_tier
      = "tier2"
    ∧ (update_event_finality ethereumConfig true 100 true 0
        (update_event_finality ethereumConfig true 131 true 0
          cex5Event)).finality_tier = "tier1"
    ∧ (update_event_finality ethereumConfig true 100 true 0
        (update_event_finality ethereumConfig true 131 true 0
          cex5Event)).invalidated = false := by
  have h1 : update_event_finality ethereumConfig true 131 true 0 cex5Event
      = { cex5Event with confirmation_count := 32, finality_tier := "tier2"
                         temporal_confidence := 4/5 } := by
    simp [update_event_finality, cex5Event, calculate_finality_tier,
      get_finality_confidence, ethereumConfig, max_def]
  rw [h1]
  have h2 : update_event_finality ethereumConfig true 100 true 0
      ({ cex5Event with confirmation_count := 32, finality_tier := "tier2"
                        temporal_confidence := 4/5 })
      = { cex5Event with confirmation_count := 1, finality_tier := "tier1"
                         temporal_confidence := 3/10 } := by
    simp [update_event_finality, cex5Event, calculate_finality_tier,
      get_finality_confidence, ethereumConfig, max_def]
  rw [h2]
  exact ⟨rfl, rfl, rfl⟩

/-- Witness for C5: monotone refreshes at heads 131 then 164, and
idempotence of the head-131 refresh, on the concrete block-100 event. -/
theorem C5_witness :
    tierRank (update_event_finality ethereumConfig true 131 true 0
        cex5Event).finality_tier
      ≤ tierRank (update_event_finality ethereumConfig true 164 true 0
          (update_event_finality ethereumConfig true 131 true 0
            cex5Event)).finality_tier
    ∧ update_event_finality ethereumConfig true 131 true 0
        (update_event_finality ethereumConfig true 131 true 0 cex5Event)
      = update_event_finality ethereumConfig true 131 true 0 cex5Event := by
  constructor
  · exact C5_tier_monotone_and_idempotent.1 ethereumConfig cex5Event 100 131 164 0 0
      (by decide) (by norm_num)
  · exact C5_tier_monotone_and_idempotent.2.2 ethereumConfig true 131 true 0 cex5Event

theorem find_fork_point_go_spec (cache : List (ℤ × String)) (live : ℤ → Option String)
    (stop : ℤ) :
    ∀ (n : ℕ) (h : ℤ), h = stop + n →
      stop ≤ find_fork_point_go cache live stop h n
      ∧ find_fork_point_go cache live stop h n ≤ h
      ∧ (∀ h2 : ℤ, find_fork_point_go cache live stop h n < h2 → h2 ≤ h →
           hashMatches cache live h2 = false)
      ∧ (hashMatches cache live (find_fork_point_go cache live stop h n) = true
         ∨ find_fork_point_go cache live stop h n = stop) := by
  intro n
  induction n with
  | zero =>
    intro h hh
    simp only [find_fork_point_go]
    have hst : h = stop := by omega
    subst hst
    exact ⟨le_refl h, le_refl h, fun h2 hgt hle => absurd hle (by omega), Or.inr trivial⟩
  | succ n ih =>
    intro h hh
    by_cases hm : hashMatches cache live h = true
    · simp only [find_fork_point_go, if_pos hm]
      exact ⟨by omega, le_refl h, fun h2 hgt hle => absurd hle (by omega), Or.inl hm⟩
    · have hm2 : hashMatches cache live h = false := by
        cases hmv : hashMatches cache live h
        · rfl
        · exact absurd hmv hm
      simp only [find_fork_point_go, if_neg hm]
      obtain ⟨ih1, ih2, ih3, ih4⟩ := ih (h - 1) (by omega)
      refine ⟨ih1, by omega, ?_, ih4⟩
      intro h2 hgt hle
      rcases eq_or_lt_of_le hle with heq | hlt
      · rw [heq]; exact hm2
      · exact ih3 h2 hgt (by omega)

theorem find_fork_point_spec (cache : List (ℤ × String)) (live : ℤ → Option String)
    (start : ℤ) (h0 : 0 ≤ start) :
    max 0 (start - 100) ≤ find_fork_point cache live start
    ∧ find_fork_point cache live start ≤ start
    ∧ (∀ h2 : ℤ, find_fork_point cache live start < h2 → h2 ≤ start →
         hashMatches cache live h2 = false)
    ∧ (hashMatches cache live (find_fork_point cache live start) = true
       ∨ find_fork_point cache live start = max 0 (start - 100)) := by
  have hstop_le : max 0 (start - 100) ≤ start := max_le h0 (by omega)
  have hcoe : ((start - max 0 (start - 100)).toNat : ℤ) = start - max 0 (start - 100) :=
    Int.toNat_of_nonneg (by linarith)
  have hst : start = max 0 (start - 100) + ((start - max 0 (start - 100)).toNat : ℤ) := by
    rw [hcoe]; ring
  exact find_fork_point_go_spec cache live (max 0 (start - 100))
    (start - max 0 (start - 100)).toNat start hst

theorem get_events_in_range_mem (store : List RiskEvent) (chain : String)
    (s t : ℤ) (ev : RiskEvent) :
    ev ∈ get_events_in_range store chain s t ↔
      ev ∈ store ∧ ev.chain = chain
      ∧ ∃ bn, ev.block_number = some bn ∧ s ≤ bn ∧ bn ≤ t := by
  unfold get_events_in_range
  rw [List.mem_filter]
  constructor
  · rintro ⟨hst, hcond⟩
    cases hb : ev.block_number with
    | none => rw [hb] at hcond; cases hcond
    | some bn =>
      rw [hb] at hcond
      simp only [Bool.and_eq_true, decide_eq_true_eq] at hcond
      exact ⟨hst, hcond.2, bn, rfl, hcond.1.1, hcond.1.2⟩
  · rintro ⟨hst, hchain, bn, hb, h1, h2⟩
    refine ⟨hst, ?_⟩
    rw [hb]
    simp only [Bool.and_eq_true, decide_eq_true_eq]
    exact ⟨⟨h1, h2⟩, hchain⟩

/-- C9 (amended): on a fork detected at `fork_height ≥ 0`, the monitor
backtracks to the most recent height at or below the detection whose cached
hash still matches the live chain (no higher height matches), or to 100
blocks back when none matches; the events handed to the reorg handler are
exactly the registered events of the monitor's chain whose block number lies
in the inclusive range `[fork_point, fork_height]` — an event anchored at the
fork point itself is included. -/
theorem C9_fork_point_and_affected_range (cache : List (ℤ × String))
    (live : ℤ → Option String) (store : List RiskEvent) (chain : String)
    (fork_height : ℤ) (h0 : 0 ≤ fork_height) :
    (max 0 (fork_height - 100) ≤ find_fork_point cache live fork_height
     ∧ find_fork_point cache live fork_height ≤ fork_height
     ∧ (∀ h2 : ℤ, find_fork_point cache live fork_height < h2 → h2 ≤ fork_height →
          hashMatches cache live h2 = false)
     ∧ (hashMatches cache live (find_fork_point cache live fork_height) = true
        ∨ find_fork_point cache live fork_height = max 0 (fork_height - 100)))
    ∧ (∀ ev, ev ∈ handle_fork_affected cache live store chain fork_height ↔
        ev ∈ store ∧ ev.chain = chain
        ∧ ∃ bn, ev.block_number = some bn
            ∧ find_fork_point cache live fork_height ≤ bn ∧ bn ≤ fork_height) := by
  refine ⟨find_fork_point_spec cache live fork_height h0, ?_⟩
  intro ev
  exact get_events_in_range_mem store chain _ fork_height ev

/-- Counterexample to C9 as stated: with heights 5 (hash unchanged) and 6
(hash changed) cached, the fork point is 5, and the registered event anchored
at block 5 — the fork point itself — is handed to the reorg handler, although
the claim says only `[fork_point + 1, detected_height]` is affected. -/
theorem C9_counterexample :
    find_fork_point cex9Cache cex9Live 6 = 5
    ∧ handle_fork_affected cex9Cache cex9Live [cex9Event] "ethereum" 6 = [cex9Event]
    ∧ cex9Event.block_number = some (find_fork_point cex9Cache cex9Live 6) := by
  have h1 : find_fork_point cex9Cache cex9Live 6 = 5 := by
    simp [find_fork_point, find_fork_point_go, hashMatches, cex9Cache, cex9Live,
      lookupKV, max_def]
  refine ⟨h1, ?_, ?_⟩
  · simp [handle_fork_affected, h1, get_events_in_range, cex9Event]
  · rw [h1]; rfl

/-- Witness for C9 applying the range characterization at the concrete fork. -/
theorem C9_witness :
    find_fork_point cex9Cache cex9Live 6 ≤ 6
    ∧ (cex9Event ∈ handle_fork_affected cex9Cache cex9Live [cex9Event] "ethereum" 6 ↔
        cex9Event ∈ [cex9Event] ∧ cex9Event.chain = "ethereum"
        ∧ ∃ bn, cex9Event.block_number = some bn
            ∧ find_fork_point cex9Cache cex9Live 6 ≤ bn ∧ bn ≤ 6) := by
  have h := C9_fork_point_and_affected_range cex9Cache cex9Live [cex9Event]
    "ethereum" 6 (by norm_num)
  exact ⟨h.1.2.1, h.2 cex9Event⟩

theorem find_replacement_isSome (old : RiskEvent) (news : List RiskEvent)
    (h : ∃ rep ∈ news, rep.coin = old.coin ∧ rep.source = old.source
        ∧ |rep.timestamp - old.timestamp| < 60) :
    ∃ r, find_replacement_event old news = some r := by
  induction news with
  | nil =>
    obtain ⟨rep, hmem, _⟩ := h
    cases hmem
  | cons n rest ih =>
    by_cases hc : n.coin = old.coin ∧ n.source = old.source
        ∧ |n.timestamp - old.timestamp| < 60
    · exact ⟨n, by simp [find_replacement_event, hc]⟩
    · obtain ⟨rep, hmem, hcond⟩ := h
      rcases List.mem_cons.mp hmem with heq | hmem2
      · subst heq; exact absurd hcond hc
      · obtain ⟨r, hr⟩ := ih ⟨rep, hmem2, hcond⟩
        exact ⟨r, by rw [find_replacement_event, if_neg hc]; exact hr⟩

/-- C6: for every reorg handled with a non-empty replacement set in which
each affected event matches a replacement (same coin and source, timestamp
within 60 s) and with the handler's version counters agreeing with the
events' versions, every affected event ends invalidated with
`replacement_event_id` set to its own (shared) event id, and exactly one
correction event is emitted per affected event — pairwise: sharing its
`event_id`, carrying `event_version = previous version + 1`, with
`is_finalized = false` and `original_block_number` taken from the
invalidated event. -/
theorem C6_reorg_with_replacements
    (versions : List (String × ℤ)) (now : ℚ) (affected news : List RiskEvent)
    (hnodup : (affected.map (fun e => e.event_id)).Nodup)
    (hver : ∀ old ∈ affected, (lookupKV versions old.event_id).getD 1 = old.event_version)
    (hrep : ∀ old ∈ affected, ∃ rep ∈ news, rep.coin = old.coin
        ∧ rep.source = old.source ∧ |rep.timestamp - old.timestamp| < 60)
    (_hne : news ≠ []) :
    List.Forall₂ (fun old old2 => old2.invalidated = true
        ∧ old2.replacement_event_id = some old.event_id)
      affected (handle_reorg versions now affected (some news)).2.1
    ∧ List.Forall₂ (fun old cor => cor.event_id = old.event_id
        ∧ cor.event_version = old.event_version + 1
        ∧ cor.is_finalized = false
        ∧ cor.original_block_number = old.block_number)
      affected (handle_reorg versions now affected (some news)).2.2 := by
  unfold handle_reorg
  simp only [Option.getD]
  induction affected generalizing versions with
  | nil => exact ⟨List.Forall₂.nil, List.Forall₂.nil⟩
  | cons old rest ih =>
    have hrep0 := hrep old (List.mem_cons_self old rest)
    have hfr : ∃ r, find_replacement_event
        { old with invalidated := true, reorg_detected_at := some now } news
        = some r := by
      apply find_replacement_isSome
      obtain ⟨rep, hmem, h1, h2, h3⟩ := hrep0
      exact ⟨rep, hmem, h1, h2, h3⟩
    obtain ⟨r, hr⟩ := hfr
    simp only [List.map_cons, List.nodup_cons] at hnodup
    have hid_ne : ∀ o ∈ rest, o.event_id ≠ old.event_id := by
      intro o ho heq
      exact hnodup.1 (heq ▸ List.mem_map_of_mem (fun e => e.event_id) ho)
    have hver_rest : ∀ o ∈ rest,
        (lookupKV (setKV versions old.event_id
          ((lookupKV versions old.event_id).getD 1 + 1)) o.event_id).getD 1
          = o.event_version := by
      intro o ho
      rw [lookupKV_setKV_other versions old.event_id o.event_id _ (hid_ne o ho)]
      exact hver o (List.mem_cons_of_mem old ho)
    have ihr := ih (setKV versions old.event_id
        ((lookupKV versions old.event_id).getD 1 + 1))
      hnodup.2 hver_rest
      (fun o ho => hrep o (List.mem_cons_of_mem old ho))
    simp only [handle_reorg_go, hr, create_correction_event]
    constructor
    · refine List.Forall₂.cons ⟨rfl, rfl⟩ ?_
      exact ihr.1
    · refine List.Forall₂.cons ⟨rfl, ?_, rfl, rfl⟩ ?_
      · rw [hver old (List.mem_cons_self old rest)]
      · exact ihr.2

/-- Witness for C6: the two-event reorg with matching replacements yields
exactly two corrections. -/
theorem C6_witness :
    (handle_reorg [] 1000 [wit6A1, wit6A2] (some [wit6R1, wit6R2])).2.2.length
      = [wit6A1, wit6A2].length := by
  have h := C6_reorg_with_replacements [] 1000 [wit6A1, wit6A2] [wit6R1, wit6R2]
    (by decide)
    (by decide)
    (by
      intro old hold
      rcases List.mem_cons.mp hold with heq | hold2
      · subst heq
        exact ⟨wit6R1, by simp, by decide, by decide, by
          simp [wit6R1, wit6A1]; norm_num⟩
      · rcases List.mem_cons.mp hold2 with heq | hold3
        · subst heq
          exact ⟨wit6R2, by simp, by decide, by decide, by
            simp [wit6R2, wit6A2]; norm_num⟩
        · cases hold3)
    (by simp)
  exact h.2.length_eq.symm

theorem priceFlagged_short (market : List RiskEvent) (e : RiskEvent)
    (h : market.length < 3) : priceFlagged market e = false := by
  unfold priceFlagged
  rw [if_neg]
  intro hc
  have hle := List.length_filterMap_le (fun x => x.price) market
  omega

theorem liquidityFlagged_short (market : List RiskEvent) (e : RiskEvent)
    (h : market.length < 3) : liquidityFlagged market e = false := by
  unfold liquidityFlagged
  rw [if_neg]
  intro hc
  have hle := List.length_filterMap_le (fun x => x.liquidity_depth) market
  omega

theorem liquidityFlagged_congr (market : List RiskEvent) (e e2 : RiskEvent)
    (h : e2.liquidity_depth = e.liquidity_depth) :
    liquidityFlagged market e2 = liquidityFlagged market e := by
  unfold liquidityFlagged
  rw [h]

theorem detect_outliers_in_market_spec (market : List RiskEvent) (e : RiskEvent)
    (hlen : ¬ market.length < 3) :
    detect_outliers_in_market market e =
      { e with is_outlier := (e.is_outlier || priceFlagged market e
                               || liquidityFlagged market e)
               quality_score := e.quality_score
                 * (if priceFlagged market e then 1/2 else 1)
                 * (if liquidityFlagged market e then 1/2 else 1) } := by
  unfold detect_outliers_in_market
  rw [if_neg hlen]
  dsimp only
  by_cases hpf : priceFlagged market e = true
  · rw [if_pos hpf]
    rw [liquidityFlagged_congr market e
      { e with is_outlier := true, quality_score := e.quality_score * (1/2) } rfl]
    by_cases hlf : liquidityFlagged market e = true
    · rw [if_pos hlf]
      simp [hpf, hlf]
    · rw [if_neg hlf]
      rw [Bool.not_eq_true] at hlf
      simp [hpf, hlf]
  · rw [if_neg hpf]
    rw [Bool.not_eq_true] at hpf
    by_cases hlf : liquidityFlagged market e = true
    · rw [if_pos hlf]
      simp [hpf, hlf]
    · rw [if_neg hlf]
      rw [Bool.not_eq_true] at hlf
      simp [hpf, hlf]

/-- C8 (amended): with at least 3 surviving events, the outlier stage keeps
every event (same output length) and screens only the price and liquidity
metrics: the resulting `is_outlier` is the incoming flag or-ed with the price
z-test and the liquidity z-test over the event's `(coin, chain)` market
(each test requiring at least 3 non-null values of its metric and positive
variance, and firing when `|value - mean| / stddev` exceeds 3), and
`quality_score` is multiplied by 0.5 once per fired test; volume, supply
change, volatility and sentiment are never screened. -/
theorem C8_outlier_flagging (events : List RiskEvent) (h3 : 3 ≤ events.length) :
    (detect_outliers events).length = events.length
    ∧ ∀ i (hi : i < events.length) (hi2 : i < (detect_outliers events).length),
        ((detect_outliers events)[i].is_outlier
          = (events[i].is_outlier
              || priceFlagged (events.filter (sameMarket events[i])) events[i]
              || liquidityFlagged (events.filter (sameMarket events[i])) events[i])
        ∧ (detect_outliers events)[i].quality_score
          = events[i].quality_score
              * (if priceFlagged (events.filter (sameMarket events[i])) events[i]
                 then 1/2 else 1)
              * (if liquidityFlagged (events.filter (sameMarket events[i])) events[i]
                 then 1/2 else 1)) := by
  have hif : detect_outliers events = events.map (fun e =>
      detect_outliers_in_market (events.filter (sameMarket e)) e) := by
    unfold detect_outliers
    rw [if_neg (by omega)]
  constructor
  · rw [hif, List.length_map]
  · intro i hi hi2
    have hget : (detect_outliers events)[i] =
        detect_outliers_in_market (events.filter (sameMarket events[i])) events[i] := by
      simp only [hif, List.getElem_map]
    rw [hget]
    by_cases hlen : (events.filter (sameMarket events[i])).length < 3
    · have hpf := priceFlagged_short (events.filter (sameMarket events[i])) events[i] hlen
      have hlf := liquidityFlagged_short (events.filter (sameMarket events[i])) events[i] hlen
      simp [detect_outliers_in_market, hlen, hpf, hlf]
    · rw [detect_outliers_in_market_spec _ _ hlen]
      exact ⟨rfl, rfl⟩

/-- Counterexample to C8 as stated: in a market of eleven events whose only
populated metric is volume (ten zeros and one extreme value), the extreme
event's volume exceeds the z-threshold — the first conjunct is exactly the
squared form of `|value - mean| / stddev > 3` — yet the outlier stage leaves
the batch untouched and no event is flagged: volume is not screened. -/
theorem C8_counterexample :
    zExceeds (cex8Events.filterMap (fun e => e.volume)) 1000 outlier_z_threshold = true
    ∧ detect_outliers cex8Events = cex8Events
    ∧ ∀ e ∈ cex8Events, e.is_outlier = false := by
  have hprices : cex8Events.filterMap (fun x => x.price) = [] := by
    simp [cex8Events, cex8Base, List.replicate]
  have hliqs : cex8Events.filterMap (fun x => x.liquidity_depth) = [] := by
    simp [cex8Events, cex8Base, List.replicate]
  refine ⟨?_, ?_, ?_⟩
  · unfold zExceeds
    rw [decide_eq_true_eq]
    have hv : cex8Events.filterMap (fun e => e.volume)
        = List.replicate 10 (0 : ℚ) ++ [1000] := by
      simp [cex8Events, cex8Base, List.replicate]
    rw [hv]
    norm_num [listMean, sqDevTotal, List.replicate, outlier_z_threshold]
  · have hif : detect_outliers cex8Events = cex8Events.map (fun e =>
        detect_outliers_in_market (cex8Events.filter (sameMarket e)) e) := by
      unfold detect_outliers
      rw [if_neg (by decide)]
    have hpt : ∀ e ∈ cex8Events,
        detect_outliers_in_market (cex8Events.filter (sameMarket e)) e = e := by
      intro e _
      have hsubp : (cex8Events.filter (sameMarket e)).filterMap (fun x => x.price)
          = [] := by
        rw [← List.sublist_nil, ← hprices]
        exact List.Sublist.filterMap _ (List.filter_sublist cex8Events)
      have hsubl : (cex8Events.filter (sameMarket e)).filterMap
          (fun x => x.liquidity_depth) = [] := by
        rw [← List.sublist_nil, ← hliqs]
        exact List.Sublist.filterMap _ (List.filter_sublist cex8Events)
      have hp : priceFlagged (cex8Events.filter (sameMarket e)) e = false := by
        unfold priceFlagged
        rw [hsubp]
        norm_num
      have hl : liquidityFlagged (cex8Events.filter (sameMarket e)) e = false := by
        unfold liquidityFlagged
        rw [hsubl]
        norm_num
      unfold detect_outliers_in_market
      split_ifs with h1 <;> simp_all
    rw [hif]
    calc cex8Events.map (fun e =>
          detect_outliers_in_market (cex8Events.filter (sameMarket e)) e)
        = cex8Events.map (fun e => e) := List.map_congr_left hpt
      _ = cex8Events := List.map_id' cex8Events
  · decide

/-- Witness for C8: the eleven-event batch satisfies the size hypothesis and
the stage preserves its length. -/
theorem C8_witness :
    (detect_outliers cex8Events).length = cex8Events.length := by
  exact (C8_outlier_flagging cex8Events (by decide)).1

theorem char_toNat_ofNat {n : ℕ} (h : n.isValidChar) : (Char.ofNat n).toNat = n := by
  unfold Char.ofNat
  rw [dif_pos h]
  rfl

theorem char_toUpper_idem (c : Char) :
    Char.toUpper (Char.toUpper c) = Char.toUpper c := by
  unfold Char.toUpper
  dsimp only
  by_cases h : c.toNat ≥ 97 ∧ c.toNat ≤ 122
  · rw [if_pos h]
    have hval : (Char.ofNat (c.toNat - 32)).toNat = c.toNat - 32 :=
      char_toNat_ofNat (Or.inl (by omega))
    rw [if_neg (by rw [hval]; omega)]
  · rw [if_neg h, if_neg h]

theorem char_toLower_idem (c : Char) :
    Char.toLower (Char.toLower c) = Char.toLower c := by
  unfold Char.toLower
  dsimp only
  by_cases h : c.toNat ≥ 65 ∧ c.toNat ≤ 90
  · rw [if_pos h]
    have hval : (Char.ofNat (c.toNat + 32)).toNat = c.toNat + 32 :=
      char_toNat_ofNat (Or.inl (by omega))
    rw [if_neg (by rw [hval]; omega)]
  · rw [if_neg h, if_neg h]

theorem string_toUpper_idem (s : String) : s.toUpper.toUpper = s.toUpper := by
  unfold String.toUpper
  rw [String.map_eq, String.map_eq]
  rw [List.map_map]
  congr 1
  apply List.map_congr_left
  intro c _
  exact char_toUpper_idem c

theorem string_toLower_idem (s : String) : s.toLower.toLower = s.toLower := by
  unfold String.toLower
  rw [String.map_eq, String.map_eq]
  rw [List.map_map]
  congr 1
  apply List.map_congr_left
  intro c _
  exact char_toLower_idem c

theorem normalize_event_quality (e : RiskEvent) :
    (normalize_event e).quality_score = 1 := rfl

theorem normalize_event_coin (e : RiskEvent) :
    (normalize_event e).coin = e.coin.toUpper := by
  unfold normalize_event
  dsimp only
  cases e.price with
  | none => rfl
  | some p => dsimp only; split_ifs <;> rfl

theorem normalize_event_chain (e : RiskEvent) :
    (normalize_event e).chain = e.chain.toLower := by
  unfold normalize_event
  dsimp only
  cases e.price with
  | none => rfl
  | some p => dsimp only; split_ifs <;> rfl

theorem normalize_event_price (e : RiskEvent) :
    (normalize_event e).price =
      match e.price with
      | none => none
      | some p => some (if p < price_min then price_min
                        else if p > price_max then price_max else p) := by
  unfold normalize_event
  dsimp only
  cases e.price with
  | none => rfl
  | some p => dsimp only; split_ifs <;> rfl

theorem normalize_event_normalized (e : RiskEvent) :
    normalizedFields (normalize_event e) := by
  refine ⟨?_, ?_, ?_⟩
  · rw [normalize_event_coin]
    exact (string_toUpper_idem e.coin).symm
  · rw [normalize_event_chain]
    exact (string_toLower_idem e.chain).symm
  · intro q hq
    rw [normalize_event_price] at hq
    cases hp : e.price with
    | none => rw [hp] at hq; cases hq
    | some p =>
      rw [hp] at hq
      dsimp only at hq
      have hq2 : (if p < price_min then price_min
          else if p > price_max then price_max else p) = q := by
        cases hq; rfl
      rw [← hq2]
      unfold price_min price_max
      split_ifs with ha hb
      · norm_num
      · norm_num
      · exact ⟨by linarith, by linarith⟩

theorem normalize_event_stable (e : RiskEvent) (h : normalizedFields e) :
    normalize_event e = { e with quality_score := 1 } := by
  obtain ⟨hcoin, hchain, hprice⟩ := h
  unfold normalize_event
  dsimp only
  rw [← hcoin, ← hchain]
  cases hp : e.price with
  | none => rfl
  | some p =>
    dsimp only
    obtain ⟨h1, h2⟩ := hprice p hp
    rw [if_neg (not_lt.mpr h1), if_neg (not_lt.mpr h2)]

theorem detect_outliers_in_market_proj (market : List RiskEvent) (e : RiskEvent) :
    (detect_outliers_in_market market e).coin = e.coin
    ∧ (detect_outliers_in_market market e).chain = e.chain
    ∧ (detect_outliers_in_market market e).source = e.source
    ∧ (detect_outliers_in_market market e).price = e.price
    ∧ (detect_outliers_in_market market e).liquidity_depth = e.liquidity_depth
    ∧ (detect_outliers_in_market market e).volume = e.volume
    ∧ (detect_outliers_in_market market e).timestamp = e.timestamp := by
  unfold detect_outliers_in_market
  dsimp only
  split_ifs <;> exact ⟨rfl, rfl, rfl, rfl, rfl, rfl, rfl⟩

theorem detect_outliers_in_market_sig (market : List RiskEvent) (e : RiskEvent) :
    event_signature (detect_outliers_in_market market e) = event_signature e := by
  obtain ⟨h1, h2, h3, h4, h5, h6, _⟩ := detect_outliers_in_market_proj market e
  unfold event_signature
  rw [h1, h2, h3, h4, h5, h6]

theorem normalizedFields_outlier (market : List RiskEvent) (e : RiskEvent)
    (h : normalizedFields e) :
    normalizedFields (detect_outliers_in_market market e) := by
  obtain ⟨h1, h2, _, h4, _, _, _⟩ := detect_outliers_in_market_proj market e
  obtain ⟨hc, hh, hp⟩ := h
  refine ⟨?_, ?_, ?_⟩
  · rw [h1]; exact hc
  · rw [h2]; exact hh
  · intro q hq
    rw [h4] at hq
    exact hp q hq

theorem priceFlagged_congr (m m2 : List RiskEvent) (x y : RiskEvent)
    (hm : m2.filterMap (fun a => a.price) = m.filterMap (fun a => a.price))
    (hx : y.price = x.price) : priceFlagged m2 y = priceFlagged m x := by
  unfold priceFlagged
  rw [hm, hx]

theorem liquidityFlagged_congr2 (m m2 : List RiskEvent) (x y : RiskEvent)
    (hm : m2.filterMap (fun a => a.liquidity_depth)
      = m.filterMap (fun a => a.liquidity_depth))
    (hx : y.liquidity_depth = x.liquidity_depth) :
    liquidityFlagged m2 y = liquidityFlagged m x := by
  unfold liquidityFlagged
  rw [hm, hx]

theorem detect_outliers_in_market_reapply (m m2 : List RiskEvent) (e : RiskEvent)
    (hq : e.quality_score = 1)
    (hmp : m2.filterMap (fun a => a.price) = m.filterMap (fun a => a.price))
    (hml : m2.filterMap (fun a => a.liquidity_depth)
      = m.filterMap (fun a => a.liquidity_depth))
    (hlen : m2.length = m.length) :
    detect_outliers_in_market m2
        { detect_outliers_in_market m e with quality_score := 1 }
      = detect_outliers_in_market m e := by
  by_cases hsh : m.length < 3
  · have h1 : detect_outliers_in_market m e = e := by
      unfold detect_outliers_in_market
      rw [if_pos hsh]
    rw [h1]
    have h2 : ({ e with quality_score := 1 } : RiskEvent) = e := by
      cases e
      simp_all
    rw [h2]
    unfold detect_outliers_in_market
    rw [if_pos (by omega)]
  · have hsh2 : ¬ m2.length < 3 := by omega
    rw [detect_outliers_in_market_spec m e hsh]
    rw [detect_outliers_in_market_spec m2 _ hsh2]
    have hpf2 : priceFlagged m2
        { e with is_outlier := (e.is_outlier || priceFlagged m e
                                 || liquidityFlagged m e)
                 quality_score := 1 }
        = priceFlagged m e := priceFlagged_congr m m2 e _ hmp rfl
    have hlf2 : liquidityFlagged m2
        { e with is_outlier := (e.is_outlier || priceFlagged m e
                                 || liquidityFlagged m e)
                 quality_score := 1 }
        = liquidityFlagged m e := liquidityFlagged_congr2 m m2 e _ hml rfl
    cases e with
    | mk a1 a2 a3 a4 a5 a6 a7 a8 a9 a10 a11 a12 a13 a14 a15 a16 a17 a18 a19 a20
        a21 a22 a23 a24 a25 a26 a27 =>
      dsimp only at hpf2 hlf2 ⊢
      rw [hpf2, hlf2]
      dsimp only at hq
      subst hq
      cases hpfv : priceFlagged m
          (RiskEvent.mk a1 a2 a3 a4 a5 a6 a7 a8 a9 a10 a11 a12 a13 a14 a15 a16 a17
            a18 a19 a20 a21 a22 a23 a24 a25 a26 1) <;>
        cases hlfv : liquidityFlagged m
          (RiskEvent.mk a1 a2 a3 a4 a5 a6 a7 a8 a9 a10 a11 a12 a13 a14 a15 a16 a17
            a18 a19 a20 a21 a22 a23 a24 a25 a26 1) <;>
        simp [hpfv, hlfv]

theorem quality_reset_eta (e : RiskEvent) (h : e.quality_score = 1) :
    ({ e with quality_score := 1 } : RiskEvent) = e := by
  cases e
  simp_all

theorem filter_sameMarket_map (g : RiskEvent → RiskEvent)
    (hg : ∀ x, (g x).coin = x.coin ∧ (g x).chain = x.chain)
    (l : List RiskEvent) (e : RiskEvent) :
    (l.map g).filter (sameMarket (g e)) = (l.filter (sameMarket e)).map g := by
  induction l with
  | nil => rfl
  | cons x xs ih =>
    simp only [List.map_cons, List.filter_cons]
    have hsm : sameMarket (g e) (g x) = sameMarket e x := by
      unfold sameMarket
      rw [(hg x).1, (hg x).2, (hg e).1, (hg e).2]
    rw [hsm]
    cases hv : sameMarket e x <;> simp [ih]

theorem filterMap_price_map (g : RiskEvent → RiskEvent)
    (hg : ∀ x, (g x).price = x.price) (l : List RiskEvent) :
    (l.map g).filterMap (fun a => a.price) = l.filterMap (fun a => a.price) := by
  rw [List.filterMap_map]
  exact List.filterMap_congr (fun a _ => by exact hg a)

theorem filterMap_liq_map (g : RiskEvent → RiskEvent)
    (hg : ∀ x, (g x).liquidity_depth = x.liquidity_depth) (l : List RiskEvent) :
    (l.map g).filterMap (fun a => a.liquidity_depth)
      = l.filterMap (fun a => a.liquidity_depth) := by
  rw [List.filterMap_map]
  exact List.filterMap_congr (fun a _ => by exact hg a)

theorem detect_outliers_reapply (u : List RiskEvent)
    (hq : ∀ e ∈ u, e.quality_score = 1) :
    detect_outliers ((detect_outliers u).map
        (fun x => ({ x with quality_score := 1 } : RiskEvent)))
      = detect_outliers u := by
  by_cases hlen : u.length < 3
  · have h1 : detect_outliers u = u := by
      unfold detect_outliers
      rw [if_pos hlen]
    have h2 : u.map (fun x => ({ x with quality_score := 1 } : RiskEvent)) = u := by
      calc u.map (fun x => ({ x with quality_score := 1 } : RiskEvent))
          = u.map id := List.map_congr_left (fun e he => quality_reset_eta e (hq e he))
        _ = u := List.map_id u
    rw [h1, h2, h1]
  · have hif : detect_outliers u = u.map (fun e =>
        detect_outliers_in_market (u.filter (sameMarket e)) e) := by
      unfold detect_outliers
      rw [if_neg hlen]
    set g : RiskEvent → RiskEvent := fun e =>
      ({ detect_outliers_in_market (u.filter (sameMarket e)) e
         with quality_score := 1 } : RiskEvent) with hg
    have hproj : ∀ x : RiskEvent, (g x).coin = x.coin ∧ (g x).chain = x.chain
        ∧ (g x).price = x.price ∧ (g x).liquidity_depth = x.liquidity_depth := by
      intro x
      rw [hg]
      obtain ⟨h1, h2, _, h4, h5, _, _⟩ :=
        detect_outliers_in_market_proj (u.filter (sameMarket x)) x
      exact ⟨h1, h2, h4, h5⟩
    have hmap2 : (detect_outliers u).map
        (fun x => ({ x with quality_score := 1 } : RiskEvent)) = u.map g := by
      rw [hif, List.map_map]
      rfl
    rw [hmap2, hif]
    have hlen2 : ¬ (u.map g).length < 3 := by
      rw [List.length_map]
      exact hlen
    have hif2 : detect_outliers (u.map g) = (u.map g).map (fun x =>
        detect_outliers_in_market ((u.map g).filter (sameMarket x)) x) := by
      unfold detect_outliers
      rw [if_neg hlen2]
    rw [hif2, List.map_map]
    apply List.map_congr_left
    intro e he
    have hfc : (u.map g).filter (sameMarket (g e)) = (u.filter (sameMarket e)).map g :=
      filter_sameMarket_map g (fun x => ⟨(hproj x).1, (hproj x).2.1⟩) u e
    have hmp := filterMap_price_map g (fun x => (hproj x).2.2.1) (u.filter (sameMarket e))
    have hml := filterMap_liq_map g (fun x => (hproj x).2.2.2) (u.filter (sameMarket e))
    have hlf : ((u.filter (sameMarket e)).map g).length
        = (u.filter (sameMarket e)).length := List.length_map _ _
    have hre := detect_outliers_in_market_reapply (u.filter (sameMarket e))
      ((u.filter (sameMarket e)).map g) e (hq e he) hmp hml hlf
    show detect_outliers_in_market ((u.map g).filter (sameMarket (g e))) (g e)
        = detect_outliers_in_market (u.filter (sameMarket e)) e
    rw [hfc, hg]
    exact hre

theorem dedup_go_sublist (es : List RiskEvent) :
    ∀ m, (dedup_go m es).2.Sublist es := by
  induction es with
  | nil => intro m; simp [dedup_go]
  | cons e rest ih =>
    intro m
    unfold dedup_go
    dsimp only
    cases hl : lookupKV m (event_signature e) with
    | some t =>
      dsimp only
      split_ifs with h
      · exact (ih m).cons e
      · exact (ih (setKV m (event_signature e) e.timestamp)).cons₂ e
    | none => exact (ih (setKV m (event_signature e) e.timestamp)).cons₂ e

theorem dedup_go_keepAll (u : List RiskEvent) :
    ∀ m, SepFrom m u → (dedup_go m u).2 = u := by
  induction u with
  | nil => intro m _; rfl
  | cons e rest ih =>
    intro m hsep
    obtain ⟨h1, h2⟩ := hsep
    unfold dedup_go
    dsimp only
    cases hl : lookupKV m (event_signature e) with
    | some t =>
      dsimp only
      rw [if_neg (not_lt.mpr (h1 t hl))]
      dsimp only
      rw [ih _ h2]
    | none =>
      dsimp only
      rw [ih _ h2]

theorem dedup_go_sepOut (es : List RiskEvent) :
    ∀ m, SepFrom m (dedup_go m es).2 := by
  induction es with
  | nil => intro m; exact trivial
  | cons e rest ih =>
    intro m
    unfold dedup_go
    dsimp only
    cases hl : lookupKV m (event_signature e) with
    | some t =>
      dsimp only
      split_ifs with h
      · exact ih m
      · dsimp only
        refine ⟨?_, ih (setKV m (event_signature e) e.timestamp)⟩
        intro t2 hl2
        rw [hl] at hl2
        injection hl2 with ht
        rw [← ht]
        exact not_lt.mp h
    | none =>
      dsimp only
      refine ⟨?_, ih (setKV m (event_signature e) e.timestamp)⟩
      intro t2 hl2
      rw [hl] at hl2
      cases hl2

theorem dedup_go_lookup_persist (es : List RiskEvent) :
    ∀ m (s : EventSig) (v : ℚ), lookupKV m s = some v →
      lookupKV (dedup_go m es).1 s = some v
      ∨ ∃ y ∈ (dedup_go m es).2, event_signature y = s
          ∧ lookupKV (dedup_go m es).1 s = some y.timestamp := by
  induction es with
  | nil => intro m s v h; exact Or.inl h
  | cons e rest ih =>
    intro m s v h
    unfold dedup_go
    dsimp only
    cases hl : lookupKV m (event_signature e) with
    | some t =>
      dsimp only
      split_ifs with hcond
      · exact ih m s v h
      · dsimp only
        by_cases hse : event_signature e = s
        · subst hse
          rcases ih (setKV m (event_signature e) e.timestamp) (event_signature e)
              e.timestamp (lookupKV_setKV_self m (event_signature e) e.timestamp)
            with h1 | ⟨y, hy, hys, hyl⟩
          · exact Or.inr ⟨e, List.mem_cons_self e _, rfl, h1⟩
          · exact Or.inr ⟨y, List.mem_cons_of_mem e hy, hys, hyl⟩
        · have hother : lookupKV (setKV m (event_signature e) e.timestamp) s = some v := by
            rw [lookupKV_setKV_other m (event_signature e) s e.timestamp
              (fun heq => hse heq.symm)]
            exact h
          rcases ih (setKV m (event_signature e) e.timestamp) s v hother
            with h1 | ⟨y, hy, hys, hyl⟩
          · exact Or.inl h1
          · exact Or.inr ⟨y, List.mem_cons_of_mem e hy, hys, hyl⟩
    | none =>
      dsimp only
      by_cases hse : event_signature e = s
      · subst hse
        rcases ih (setKV m (event_signature e) e.timestamp) (event_signature e)
            e.timestamp (lookupKV_setKV_self m (event_signature e) e.timestamp)
          with h1 | ⟨y, hy, hys, hyl⟩
        · exact Or.inr ⟨e, List.mem_cons_self e _, rfl, h1⟩
        · exact Or.inr ⟨y, List.mem_cons_of_mem e hy, hys, hyl⟩
      · have hother : lookupKV (setKV m (event_signature e) e.timestamp) s = some v := by
          rw [lookupKV_setKV_other m (event_signature e) s e.timestamp
            (fun heq => hse heq.symm)]
          exact h
        rcases ih (setKV m (event_signature e) e.timestamp) s v hother
          with h1 | ⟨y, hy, hys, hyl⟩
        · exact Or.inl h1
        · exact Or.inr ⟨y, List.mem_cons_of_mem e hy, hys, hyl⟩

theorem dedup_go_lastWrite (es : List RiskEvent) :
    ∀ m (x : RiskEvent), x ∈ (dedup_go m es).2 →
      ∃ y ∈ (dedup_go m es).2, event_signature y = event_signature x
        ∧ lookupKV (dedup_go m es).1 (event_signature x) = some y.timestamp := by
  induction es with
  | nil => intro m x hx; cases hx
  | cons e rest ih =>
    intro m x hx
    unfold dedup_go at hx ⊢
    dsimp only at hx ⊢
    cases hl : lookupKV m (event_signature e) with
    | some t =>
      rw [hl] at hx
      dsimp only at hx ⊢
      split_ifs with hcond
      · rw [if_pos hcond] at hx
        exact ih m x hx
      · rw [if_neg hcond] at hx
        dsimp only at hx ⊢
        rcases List.mem_cons.mp hx with heq | hx2
        · subst heq
          rcases dedup_go_lookup_persist rest
              (setKV m (event_signature x) x.timestamp) (event_signature x)
              x.timestamp (lookupKV_setKV_self m (event_signature x) x.timestamp)
            with h1 | ⟨y, hy, hys, hyl⟩
          · exact ⟨x, List.mem_cons_self x _, rfl, h1⟩
          · exact ⟨y, List.mem_cons_of_mem x hy, hys, hyl⟩
        · obtain ⟨y, hy, hys, hyl⟩ :=
            ih (setKV m (event_signature e) e.timestamp) x hx2
          exact ⟨y, List.mem_cons_of_mem e hy, hys, hyl⟩
    | none =>
      rw [hl] at hx
      dsimp only at hx ⊢
      rcases List.mem_cons.mp hx with heq | hx2
      · subst heq
        rcases dedup_go_lookup_persist rest
            (setKV m (event_signature x) x.timestamp) (event_signature x)
            x.timestamp (lookupKV_setKV_self m (event_signature x) x.timestamp)
          with h1 | ⟨y, hy, hys, hyl⟩
        · exact ⟨x, List.mem_cons_self x _, rfl, h1⟩
        · exact ⟨y, List.mem_cons_of_mem x hy, hys, hyl⟩
      · obtain ⟨y, hy, hys, hyl⟩ :=
          ih (setKV m (event_signature e) e.timestamp) x hx2
        exact ⟨y, List.mem_cons_of_mem e hy, hys, hyl⟩

theorem mem_of_lookupKV {κ ν : Type} [DecidableEq κ] (m : List (κ × ν)) (k : κ) (v : ν)
    (h : lookupKV m k = some v) : (k, v) ∈ m := by
  induction m with
  | nil => cases h
  | cons p rest ih =>
    obtain ⟨k1, v1⟩ := p
    by_cases h1 : k1 = k
    · subst h1
      simp [lookupKV] at h
      subst h
      exact List.mem_cons_self _ _
    · simp only [lookupKV, if_neg h1] at h
      exact List.mem_cons_of_mem _ (ih h)

theorem lookupKV_of_mem_nodup {κ ν : Type} [DecidableEq κ] (m : List (κ × ν)) (k : κ) (v : ν)
    (hnd : (m.map Prod.fst).Nodup) (h : (k, v) ∈ m) : lookupKV m k = some v := by
  induction m with
  | nil => cases h
  | cons p rest ih =>
    obtain ⟨k1, v1⟩ := p
    rw [List.map_cons, List.nodup_cons] at hnd
    rcases List.mem_cons.mp h with heq | hmem
    · injection heq with hk hv
      subst hk
      subst hv
      simp [lookupKV]
    · by_cases hk : k1 = k
      · exfalso
        apply hnd.1
        rw [hk]
        exact List.mem_map.mpr ⟨(k, v), hmem, rfl⟩
      · simp only [lookupKV, if_neg hk]
        exact ih hnd.2 hmem

theorem lookupKV_filter_mem {κ ν : Type} [DecidableEq κ] (m : List (κ × ν))
    (p : κ × ν → Bool) (k : κ) (v : ν)
    (h : lookupKV (m.filter p) k = some v) : (k, v) ∈ m ∧ p (k, v) = true := by
  have hm := mem_of_lookupKV (m.filter p) k v h
  exact List.mem_filter.mp hm

theorem lookupKV_purge_some (m : List (EventSig × ℚ)) (now : ℚ) (s : EventSig) (t : ℚ)
    (hnd : (m.map Prod.fst).Nodup)
    (h : lookupKV (purgeSeen now m) s = some t) : lookupKV m s = some t := by
  unfold purgeSeen at h
  obtain ⟨hmem, _⟩ := lookupKV_filter_mem m _ s t h
  exact lookupKV_of_mem_nodup m s t hnd hmem

theorem lookupKV_purge_none (m : List (EventSig × ℚ)) (now : ℚ) (s : EventSig) (v : ℚ)
    (hnd : (m.map Prod.fst).Nodup) (hv : lookupKV m s = some v)
    (hold : v ≤ now - dedup_window_sec) :
    lookupKV (purgeSeen now m) s = none := by
  cases h2 : lookupKV (purgeSeen now m) s with
  | none => rfl
  | some t =>
    exfalso
    unfold purgeSeen at h2
    obtain ⟨hmem, hp⟩ := lookupKV_filter_mem m _ s t h2
    have hlk := lookupKV_of_mem_nodup m s t hnd hmem
    rw [hv] at hlk
    injection hlk with ht
    subst ht
    have hgt : v > now - dedup_window_sec := of_decide_eq_true hp
    linarith

theorem setKV_keys {κ ν : Type} [DecidableEq κ] (m : List (κ × ν)) (k : κ) (v : ν) :
    (setKV m k v).map Prod.fst
      = if k ∈ m.map Prod.fst then m.map Prod.fst else m.map Prod.fst ++ [k] := by
  induction m with
  | nil => simp [setKV]
  | cons p rest ih =>
    obtain ⟨k1, v1⟩ := p
    by_cases h : k1 = k
    · subst h
      simp [setKV]
    · simp only [setKV, if_neg h, List.map_cons, ih, List.mem_cons]
      by_cases h2 : k ∈ rest.map Prod.fst
      · simp [h2, Ne.symm h]
      · simp [h2, Ne.symm h]

theorem setKV_keys_nodup {κ ν : Type} [DecidableEq κ] (m : List (κ × ν)) (k : κ) (v : ν)
    (hnd : (m.map Prod.fst).Nodup) : ((setKV m k v).map Prod.fst).Nodup := by
  rw [setKV_keys]
  by_cases h : k ∈ m.map Prod.fst
  · rw [if_pos h]; exact hnd
  · rw [if_neg h]
    simp [List.nodup_append, hnd, h]

theorem purge_keys_nodup (m : List (EventSig × ℚ)) (now : ℚ)
    (hnd : (m.map Prod.fst).Nodup) : ((purgeSeen now m).map Prod.fst).Nodup := by
  unfold purgeSeen
  exact List.Nodup.sublist ((List.filter_sublist m).map Prod.fst) hnd

theorem dedup_go_keys_nodup (es : List RiskEvent) :
    ∀ m, (m.map Prod.fst).Nodup → ((dedup_go m es).1.map Prod.fst).Nodup := by
  induction es with
  | nil => intro m h; exact h
  | cons e rest ih =>
    intro m h
    unfold dedup_go
    dsimp only
    cases hl : lookupKV m (event_signature e) with
    | some t =>
      dsimp only
      split_ifs with hc
      · exact ih m h
      · exact ih _ (setKV_keys_nodup m _ _ h)
    | none => exact ih _ (setKV_keys_nodup m _ _ h)

theorem dedup_go_lookup_inv (es : List RiskEvent) :
    ∀ m (s : EventSig) (t : ℚ), lookupKV (dedup_go m es).1 s = some t →
      lookupKV m s = some t ∨ ∃ y ∈ (dedup_go m es).2, event_signature y = s := by
  induction es with
  | nil => intro m s t h; exact Or.inl h
  | cons e rest ih =>
    intro m s t h
    unfold dedup_go at h ⊢
    dsimp only at h ⊢
    cases hl : lookupKV m (event_signature e) with
    | some u =>
      rw [hl] at h
      dsimp only at h ⊢
      split_ifs with hc
      · rw [if_pos hc] at h
        exact ih m s t h
      · rw [if_neg hc] at h
        dsimp only at h ⊢
        rcases ih _ s t h with h1 | ⟨y, hy, hys⟩
        · by_cases hse : event_signature e = s
          · exact Or.inr ⟨e, List.mem_cons_self e _, hse⟩
          · rw [lookupKV_setKV_other m (event_signature e) s e.timestamp
              (Ne.symm hse)] at h1
            exact Or.inl h1
        · exact Or.inr ⟨y, List.mem_cons_of_mem e hy, hys⟩
    | none =>
      rw [hl] at h
      dsimp only at h ⊢
      rcases ih _ s t h with h1 | ⟨y, hy, hys⟩
      · by_cases hse : event_signature e = s
        · exact Or.inr ⟨e, List.mem_cons_self e _, hse⟩
        · rw [lookupKV_setKV_other m (event_signature e) s e.timestamp
            (Ne.symm hse)] at h1
          exact Or.inl h1
      · exact Or.inr ⟨y, List.mem_cons_of_mem e hy, hys⟩

theorem sepFrom_weaken (u : List RiskEvent) :
    ∀ (m μ : List (EventSig × ℚ)), SepFrom m u →
      (∀ (s : EventSig) (t : ℚ), lookupKV μ s = some t → lookupKV m s = some t) →
      SepFrom μ u := by
  induction u with
  | nil => intro m μ _ _; exact trivial
  | cons e rest ih =>
    intro m μ hsep hsub
    refine ⟨?_, ?_⟩
    · intro t h
      exact hsep.1 t (hsub _ t h)
    · apply ih (setKV m (event_signature e) e.timestamp)
      · exact hsep.2
      · intro s t h
        by_cases hse : s = event_signature e
        · subst hse
          rw [lookupKV_setKV_self] at h ⊢
          exact h
        · rw [lookupKV_setKV_other μ (event_signature e) s e.timestamp hse] at h
          rw [lookupKV_setKV_other m (event_signature e) s e.timestamp hse]
          exact hsub s t h

theorem sepFrom_map (f : RiskEvent → RiskEvent)
    (hsig : ∀ x, event_signature (f x) = event_signature x)
    (hts : ∀ x, (f x).timestamp = x.timestamp) :
    ∀ (u : List RiskEvent) (m : List (EventSig × ℚ)),
      SepFrom m u → SepFrom m (u.map f) := by
  intro u
  induction u with
  | nil => intro m _; exact trivial
  | cons e rest ih =>
    intro m hsep
    rw [List.map_cons]
    refine ⟨?_, ?_⟩
    · intro t h
      rw [hsig e] at h
      rw [hts e]
      exact hsep.1 t h
    · rw [hsig e, hts e]
      exact ih _ hsep.2

theorem pipeline_second_pass (mu1 : List (EventSig × ℚ)) (now : ℚ) (u : List RiskEvent)
    (hnd1 : (((dedup_go mu1 u).1).map Prod.fst).Nodup)
    (hq1 : ∀ x ∈ (dedup_go mu1 u).2, x.quality_score = 1)
    (hnf1 : ∀ x ∈ (dedup_go mu1 u).2, normalizedFields x)
    (hold : ∀ e ∈ detect_outliers (dedup_go mu1 u).2,
        e.timestamp ≤ now - dedup_window_sec) :
    detect_outliers (dedup_go (purgeSeen now (dedup_go mu1 u).1)
        (normalize_events (detect_outliers (dedup_go mu1 u).2))).2
      = detect_outliers (dedup_go mu1 u).2 := by
  obtain ⟨g, hg_out, hg_sig, hg_ts, hg_nf⟩ :
      ∃ g : RiskEvent → RiskEvent,
        detect_outliers (dedup_go mu1 u).2 = ((dedup_go mu1 u).2).map g
        ∧ (∀ x, event_signature (g x) = event_signature x)
        ∧ (∀ x, (g x).timestamp = x.timestamp)
        ∧ (∀ x, normalizedFields x → normalizedFields (g x)) := by
    by_cases hlen : ((dedup_go mu1 u).2).length < 3
    · refine ⟨id, ?_, fun x => rfl, fun x => rfl, fun x h => h⟩
      unfold detect_outliers
      rw [if_pos hlen, List.map_id]
    · refine ⟨fun e => detect_outliers_in_market
          (((dedup_go mu1 u).2).filter (sameMarket e)) e, ?_, ?_, ?_, ?_⟩
      · unfold detect_outliers
        rw [if_neg hlen]
      · intro x
        exact detect_outliers_in_market_sig _ x
      · intro x
        exact (detect_outliers_in_market_proj _ x).2.2.2.2.2.2
      · intro x h
        exact normalizedFields_outlier _ x h
  have htsD : ∀ x ∈ (dedup_go mu1 u).2, x.timestamp ≤ now - dedup_window_sec := by
    intro x hx
    have hmem : g x ∈ detect_outliers (dedup_go mu1 u).2 := by
      rw [hg_out]
      exact List.mem_map_of_mem g hx
    have h2 := hold (g x) hmem
    rw [hg_ts x] at h2
    exact h2
  have hq_out : ∀ y ∈ detect_outliers (dedup_go mu1 u).2, normalizedFields y := by
    intro y hy
    rw [hg_out] at hy
    obtain ⟨x, hx, hxy⟩ := List.mem_map.mp hy
    rw [← hxy]
    exact hg_nf x (hnf1 x hx)
  have hnorm2 : normalize_events (detect_outliers (dedup_go mu1 u).2)
      = (detect_outliers (dedup_go mu1 u).2).map
          (fun x => ({ x with quality_score := 1 } : RiskEvent)) := by
    unfold normalize_events
    exact List.map_congr_left (fun y hy => normalize_event_stable y (hq_out y hy))
  have hsub : ∀ (s : EventSig) (t : ℚ),
      lookupKV (purgeSeen now (dedup_go mu1 u).1) s = some t →
        lookupKV mu1 s = some t := by
    intro s t h
    have h1 : lookupKV (dedup_go mu1 u).1 s = some t :=
      lookupKV_purge_some (dedup_go mu1 u).1 now s t hnd1 h
    rcases dedup_go_lookup_inv u mu1 s t h1 with hm | ⟨y, hy, hys⟩
    · exact hm
    · exfalso
      obtain ⟨z, hz, hzs, hzl⟩ := dedup_go_lastWrite u mu1 y hy
      have hnone := lookupKV_purge_none (dedup_go mu1 u).1 now (event_signature y)
        z.timestamp hnd1 hzl (htsD z hz)
      rw [hys] at hnone
      rw [hnone] at h
      cases h
  have hsep2 : SepFrom (purgeSeen now (dedup_go mu1 u).1)
      (normalize_events (detect_outliers (dedup_go mu1 u).2)) := by
    rw [hnorm2, hg_out, List.map_map]
    apply sepFrom_map
    · intro x
      exact hg_sig x
    · intro x
      exact hg_ts x
    · exact sepFrom_weaken (dedup_go mu1 u).2 mu1 (purgeSeen now (dedup_go mu1 u).1)
        (dedup_go_sepOut u mu1) hsub
  rw [dedup_go_keepAll (normalize_events (detect_outliers (dedup_go mu1 u).2))
    (purgeSeen now (dedup_go mu1 u).1) hsep2]
  rw [hnorm2]
  exact detect_outliers_reapply (dedup_go mu1 u).2 hq1

/-- C7 (amended): the quality pipeline is idempotent only on stale output.
If the carried signature map has no duplicate signatures and every event of
the first pass's output is at least one dedup window (60 s) older than the
clock, then re-running `process_events` on its own output with the carried
map and an unchanged clock returns exactly the same output.  (Without the
staleness condition the second pass drops fresh output events as duplicates
of themselves, so the pipeline is not idempotent in general; see the
counterexample.) -/
theorem C7_pipeline_idempotent_on_stale_output
    (seen : List (EventSig × ℚ)) (now : ℚ) (events : List RiskEvent)
    (hnd : (seen.map Prod.fst).Nodup)
    (hold : ∀ e ∈ (process_events seen now events).2,
        e.timestamp ≤ now - dedup_window_sec) :
    (process_events (process_events seen now events).1 now
        (process_events seen now events).2).2
      = (process_events seen now events).2 := by
  by_cases hev : events = []
  · subst hev
    simp [process_events]
  · have hfst : (process_events seen now events).1
        = (dedup_go (purgeSeen now seen) (normalize_events events)).1 := by
      simp only [process_events, deduplicate_events, if_neg hev]
    have hsnd : (process_events seen now events).2
        = detect_outliers (dedup_go (purgeSeen now seen)
            (normalize_events events)).2 := by
      simp only [process_events, deduplicate_events, if_neg hev]
    rw [hsnd] at hold
    rw [hfst, hsnd]
    by_cases hnil : detect_outliers (dedup_go (purgeSeen now seen)
        (normalize_events events)).2 = []
    · rw [hnil]
      simp [process_events]
    · have hmain : (process_events
          (dedup_go (purgeSeen now seen) (normalize_events events)).1 now
          (detect_outliers (dedup_go (purgeSeen now seen)
            (normalize_events events)).2)).2
        = detect_outliers (dedup_go
            (purgeSeen now (dedup_go (purgeSeen now seen)
              (normalize_events events)).1)
            (normalize_events (detect_outliers
              (dedup_go (purgeSeen now seen) (normalize_events events)).2))).2 := by
        simp only [process_events, deduplicate_events, if_neg hnil]
      rw [hmain]
      apply pipeline_second_pass
      · exact dedup_go_keys_nodup (normalize_events events) (purgeSeen now seen)
          (purge_keys_nodup seen now hnd)
      · intro x hx
        have hx2 : x ∈ normalize_events events :=
          (dedup_go_sublist (normalize_events events) (purgeSeen now seen)).subset hx
        unfold normalize_events at hx2
        obtain ⟨e0, _, he0⟩ := List.mem_map.mp hx2
        rw [← he0]
        exact normalize_event_quality e0
      · intro x hx
        have hx2 : x ∈ normalize_events events :=
          (dedup_go_sublist (normalize_events events) (purgeSeen now seen)).subset hx
        unfold normalize_events at hx2
        obtain ⟨e0, _, he0⟩ := List.mem_map.mp hx2
        rw [← he0]
        exact normalize_event_normalized e0
      · exact hold

/-- Counterexample to C7 as stated: over an empty carried map at clock 1000,
the batch `[cex7Event]` (timestamp 1000, inside the dedup window) survives
the first pass, but the second pass finds its own signature in the carried
map at distance 0 < 60 s and drops it, returning `[]` instead of the first
pass's non-empty output. -/
theorem C7_counterexample :
    (process_events (process_events [] 1000 [cex7Event]).1 1000
        (process_events [] 1000 [cex7Event]).2).2
      ≠ (process_events [] 1000 [cex7Event]).2 := by
  have hts : (normalize_event cex7Event).timestamp = 1000 := by
    unfold normalize_event cex7Event
    dsimp only
    rw [if_neg (by norm_num [price_min] : ¬((1 : ℚ) < price_min)),
      if_neg (by norm_num [price_max] : ¬((1 : ℚ) > price_max))]
  have hn2 : normalize_event (normalize_event cex7Event) = normalize_event cex7Event := by
    rw [normalize_event_stable (normalize_event cex7Event)
      (normalize_event_normalized cex7Event)]
    exact quality_reset_eta (normalize_event cex7Event) (normalize_event_quality cex7Event)
  have h0 : process_events [] 1000 [cex7Event]
      = ([(event_signature (normalize_event cex7Event),
            (normalize_event cex7Event).timestamp)],
         [normalize_event cex7Event]) := rfl
  have h1 : process_events [] 1000 [cex7Event]
      = ([(event_signature (normalize_event cex7Event), 1000)],
         [normalize_event cex7Event]) := by
    rw [h0, hts]
  have hB : (process_events (process_events [] 1000 [cex7Event]).1 1000
      (process_events [] 1000 [cex7Event]).2).2 = [] := by
    rw [h1]
    dsimp only
    unfold process_events
    rw [if_neg (List.cons_ne_nil _ _)]
    dsimp only
    have hN : normalize_events [normalize_event cex7Event]
        = [normalize_event cex7Event] := by
      unfold normalize_events
      rw [List.map_cons, List.map_nil, hn2]
    rw [hN]
    unfold deduplicate_events
    have hpurge : purgeSeen 1000 [(event_signature (normalize_event cex7Event), 1000)]
        = [(event_signature (normalize_event cex7Event), 1000)] := by
      unfold purgeSeen
      rw [List.filter_cons, if_pos (by
        simp only [decide_eq_true_eq]
        norm_num [dedup_window_sec]), List.filter_nil]
    rw [hpurge]
    have hdd : dedup_go [(event_signature (normalize_event cex7Event), 1000)]
        [normalize_event cex7Event]
        = ([(event_signature (normalize_event cex7Event), 1000)], []) := by
      unfold dedup_go
      dsimp only
      have hlk : lookupKV [(event_signature (normalize_event cex7Event), (1000 : ℚ))]
          (event_signature (normalize_event cex7Event)) = some (1000 : ℚ) := by
        simp [lookupKV]
      simp only [hlk]
      rw [hts]
      rw [if_pos (by norm_num [dedup_window_sec] :
        (1000 : ℚ) - 1000 < dedup_window_sec)]
      rfl
    rw [hdd]
    rfl
  rw [hB, h1]
  exact (List.cons_ne_nil _ _).symm

/-- Witness for the amended C7 at a stale batch: the event of `wit7Event` is
1000 s older than the clock, so re-running the pipeline on the first pass's
output with the carried map returns that output unchanged. -/
theorem C7_witness :
    (process_events (process_events [] 1000 [wit7Event]).1 1000
        (process_events [] 1000 [wit7Event]).2).2
      = (process_events [] 1000 [wit7Event]).2 := by
  apply C7_pipeline_idempotent_on_stale_output
  · exact List.nodup_nil
  · have htsW : (normalize_event wit7Event).timestamp = 0 := by
      unfold normalize_event wit7Event
      dsimp only
      rw [if_neg (by norm_num [price_min] : ¬((1 : ℚ) < price_min)),
        if_neg (by norm_num [price_max] : ¬((1 : ℚ) > price_max))]
    have h1 : (process_events [] 1000 [wit7Event]).2 = [normalize_event wit7Event] := rfl
    rw [h1]
    intro e he
    rw [List.mem_singleton] at he
    subst he
    rw [htsW]
    norm_num [dedup_window_sec]
